import Mathlib

/-!
Array list (`lists/arraylist/arraylist.go`)

A shallow embedding of the generic array list `List[T constraints.Ordered]` and a
verification of its contract.

Modelling conventions.

* The Go struct `List[T]` is the structure `ArrayList T` (the Go name would clash with
  Lean's own lists).  Its field `elements []T` is a Lean list holding the whole backing
  buffer.  Every slice stored in that field comes from `make([]T, n)`, from the literal
  `[]T{}` or is the initial `nil`, so its length and its capacity coincide; `cap(elements)`
  is therefore `elements.length`.
* `size int` is an `Int`; indices passed by callers are `Int`.  Buffer lengths are bounded by
  addressable memory, far below `2^63`, so no wrap-around of `int` arithmetic is modelled.
* The element type is any type with a decidable linear order and a zero value (`default`),
  which covers the integer and string instances of `constraints.Ordered`.
* A run-time panic (index or slice bounds out of range, negative `make` length) is the
  result `none`; every method that touches the buffer returns an `Option`.
* `float32` conversion of an integer is modelled exactly (round to nearest, ties to even,
  24-bit significand).
-/

/-- The Go struct `List[T]`: the backing buffer and the logical length. -/
structure ArrayList (T : Type) where
  elements : List T
  size : Int
deriving DecidableEq, Repr

set_option linter.unusedSectionVars false

namespace ArrayList

variable {T : Type} [LinearOrder T] [Inhabited T]

/-! ## Go primitives -/

/-- Value of `float32(x)` for a natural number `x`: exact below `2^24`, otherwise rounded to
the nearest multiple of `2^e` with `e = ⌊log2 x⌋ - 23`, ties to the even significand.  The
result is again an integer. -/
def float32OfNat (x : Nat) : Nat :=
  if x < 2 ^ 24 then x
  else
    let e := Nat.log2 x - 23
    let q := x / 2 ^ e
    let r := x % 2 ^ e
    if 2 * r < 2 ^ e then q * 2 ^ e
    else if 2 ^ e < 2 * r then (q + 1) * 2 ^ e
    else if q % 2 = 0 then q * 2 ^ e
    else (q + 1) * 2 ^ e

/-- Value of `float32(x)` for an `int` `x` (rounding is symmetric in the sign). -/
def float32 (x : Int) : Int :=
  if x < 0 then -((float32OfNat x.natAbs : Nat) : Int) else ((float32OfNat x.toNat : Nat) : Int)

/-- The constant `growthFactor = float32(2.0)`; multiplying a `float32` by it is exact. -/
def growthFactor : Int := 2

/-- The reciprocal of the constant `shrinkFactor = float32(0.25)`; multiplying a `float32`
by `0.25` is exact, and `int(..)` then truncates, so `int(f * shrinkFactor)` is `f / 4`. -/
def shrinkFactorInv : Int := 4

/-- Index expression `xs[i]` used as a value; `none` is the index-out-of-range panic. -/
def index? (xs : List T) (i : Int) : Option T :=
  if 0 ≤ i ∧ i < xs.length then xs[i.toNat]? else none

/-- Assignment `xs[i] = v`; `none` is the index-out-of-range panic. -/
def assign? (xs : List T) (i : Int) (v : T) : Option (List T) :=
  if 0 ≤ i ∧ i < xs.length then some (xs.set i.toNat v) else none

/-- Allocation `make([]T, n)`: `n` zero values; `none` is the panic on a negative length. -/
def make? (n : Int) : Option (List T) :=
  if 0 ≤ n then some (List.replicate n.toNat default) else none

/-- Slice expression `xs[lo:hi]` read as a value; `none` is the slice-bounds panic. -/
def slice? (xs : List T) (lo hi : Int) : Option (List T) :=
  if 0 ≤ lo ∧ lo ≤ hi ∧ hi ≤ xs.length then
    some ((xs.drop lo.toNat).take (hi - lo).toNat)
  else none

/-- Statement `copy(xs[lo:], src)`: the buffer `xs` afterwards.  `copy` moves
`min(len(dst), len(src))` elements and behaves as if `src` were read before anything is
written, so overlapping source and destination are fine.  `none` is the slice-bounds panic
of `xs[lo:]`. -/
def copyFrom? (xs : List T) (lo : Int) (src : List T) : Option (List T) :=
  if 0 ≤ lo ∧ lo ≤ xs.length then
    let n := min (xs.length - lo.toNat) src.length
    some (xs.take lo.toNat ++ src.take n ++ xs.drop (lo.toNat + n))
  else none

/-- Library call `slices.Sort(xs)` of `golang.org/x/exp/slices`: sorts ascending.  For a
linear order the ascending rearrangement of a list is unique, so any sorting function
gives the result of the library's algorithm. -/
def slicesSort (xs : List T) : List T :=
  xs.insertionSort (fun a b => a ≤ b)

/-! ## The methods of `List[T]` -/

/-- Method `resize`. -/
def resize (list : ArrayList T) (cap : Int) : Option (ArrayList T) := do
  let newElements ← make? cap
  let newElements ← copyFrom? newElements 0 list.elements
  some { list with elements := newElements }

/-- Method `growBy`. -/
def growBy (list : ArrayList T) (n : Int) : Option (ArrayList T) :=
  let currentCapacity : Int := list.elements.length
  if list.size + n ≥ currentCapacity then
    let newCapacity := growthFactor * float32 (currentCapacity + n)
    list.resize newCapacity
  else some list

/-- Method `shrink`; the guard `shrinkFactor == 0.0` is constantly false. -/
def shrink (list : ArrayList T) : Option (ArrayList T) :=
  let currentCapacity : Int := list.elements.length
  if list.size ≤ float32 currentCapacity / shrinkFactorInv then
    list.resize list.size
  else some list

/-- The loop of `Add`: `list.elements[list.size] = value; list.size++` for each value. -/
def addLoop : List T → ArrayList T → Option (ArrayList T)
  | [], list => some list
  | value :: rest, list => do
    let es ← assign? list.elements list.size value
    addLoop rest { elements := es, size := list.size + 1 }

/-- Method `Add`. -/
def Add (list : ArrayList T) (values : List T) : Option (ArrayList T) := do
  let list ← list.growBy values.length
  addLoop values list

/-- Constructor `New`. -/
def New (values : List T) : Option (ArrayList T) :=
  let list : ArrayList T := { elements := [], size := 0 }
  if values.length > 0 then list.Add values else some list

/-- Method `withinRange`. -/
def withinRange (list : ArrayList T) (index : Int) : Bool :=
  decide (index ≥ 0) && decide (index < list.size)

/-- Method `Get`, with the list after the call as a second component. -/
def Get (list : ArrayList T) (index : Int) : Option ((T × Bool) × ArrayList T) :=
  if !list.withinRange index then some ((default, false), list)
  else do
    let e ← index? list.elements index
    some ((e, true), list)

/-- Method `Remove`. -/
def Remove (list : ArrayList T) (index : Int) : Option (ArrayList T) :=
  if !list.withinRange index then some list
  else do
    let es ← assign? list.elements index default
    let src ← slice? es (index + 1) list.size
    let es ← copyFrom? es index src
    shrink { elements := es, size := list.size - 1 }

/-- The inner loop of `Contains` over the indices still to visit; `true` is the `break`. -/
def containsScan (list : ArrayList T) (searchValue : T) : List Nat → Option Bool
  | [] => some false
  | index :: rest => do
    let e ← index? list.elements index
    if e = searchValue then some true else containsScan list searchValue rest

/-- Method `Contains`. -/
def Contains (list : ArrayList T) : List T → Option Bool
  | [] => some true
  | searchValue :: rest => do
    let found ← containsScan list searchValue (List.range list.size.toNat)
    if !found then some false else Contains list rest

/-- Method `Values`. -/
def Values (list : ArrayList T) : Option (List T) := do
  let newElements ← make? list.size
  let src ← slice? list.elements 0 list.size
  copyFrom? newElements 0 src

/-- The loop of `IndexOf`: `for index, element := range list.elements`. -/
def indexOfScan (value : T) : List T → Int → Int
  | [], _ => -1
  | element :: rest, index =>
    if element = value then index else indexOfScan value rest (index + 1)

/-- Method `IndexOf`. -/
def IndexOf (list : ArrayList T) (value : T) : Int :=
  if list.size = 0 then -1 else indexOfScan value list.elements 0

/-- Method `Empty`. -/
def Empty (list : ArrayList T) : Bool := decide (list.size = 0)

/-- Method `Size`. -/
def Size (list : ArrayList T) : Int := list.size

/-- Method `Clear`. -/
def Clear (_list : ArrayList T) : ArrayList T := { elements := [], size := 0 }

/-- Method `Sort` (`Sort` itself is a reserved word of Lean). -/
def SortList (list : ArrayList T) : ArrayList T :=
  if list.elements.length < 2 then list
  else { list with elements := slicesSort list.elements }

/-- Method `Swap`. -/
def Swap (list : ArrayList T) (i j : Int) : Option (ArrayList T) :=
  if list.withinRange i && list.withinRange j then do
    let ej ← index? list.elements j
    let ei ← index? list.elements i
    let es ← assign? list.elements i ej
    let es ← assign? es j ei
    some { list with elements := es }
  else some list

/-- Method `Insert`. -/
def Insert (list : ArrayList T) (index : Int) (values : List T) : Option (ArrayList T) :=
  if !list.withinRange index then
    if index = list.size then list.Add values else some list
  else do
    let l : Int := values.length
    let list ← list.growBy l
    let list : ArrayList T := { list with size := list.size + l }
    let src ← slice? list.elements index (list.size - l)
    let es ← copyFrom? list.elements (index + l) src
    let es ← copyFrom? es index values
    some { list with elements := es }

/-- Method `Set`. -/
def Set (list : ArrayList T) (index : Int) (value : T) : Option (ArrayList T) :=
  if !list.withinRange index then
    if index = list.size then list.Add [value] else some list
  else do
    let es ← assign? list.elements index value
    some { list with elements := es }

/-! ## Reachable lists -/

/-- A call of one of the mutating public methods, with its arguments. -/
inductive Op (T : Type) where
  | add (values : List T)
  | set (index : Int) (value : T)
  | insert (index : Int) (values : List T)
  | remove (index : Int)
  | swap (i j : Int)
  | sort
  | clear

/-- The effect of a call on the list; `none` is a panic. -/
def Op.apply : Op T → ArrayList T → Option (ArrayList T)
  | .add values, list => list.Add values
  | .set index value, list => list.Set index value
  | .insert index values, list => list.Insert index values
  | .remove index, list => list.Remove index
  | .swap i j, list => list.Swap i j
  | .sort, list => some list.SortList
  | .clear, list => some list.Clear

/-- The lists a client can hold: built by `New` and changed only by public methods (the
queries leave the list as it is). -/
inductive Reachable : ArrayList T → Prop
  | new (values : List T) (list : ArrayList T) : New values = some list → Reachable list
  | step (op : Op T) (list list' : ArrayList T) :
      Reachable list → op.apply list = some list' → Reachable list'

/-- The representation invariant `0 <= size <= cap(elements)`. -/
def Inv (list : ArrayList T) : Prop :=
  0 ≤ list.size ∧ list.size ≤ list.elements.length

/-- A client making one `Add` call per argument list, in order. -/
def addAll (list : ArrayList T) : List (List T) → Option (ArrayList T)
  | [] => some list
  | values :: rest => do
    let list ← list.Add values
    addAll list rest

/-- The built-in `cap(list.elements)`: the number of slots of the backing buffer. -/
def capacity (list : ArrayList T) : Nat := list.elements.length

/-- Whether a call `growBy(n)` reallocates the buffer: the condition of its `if`. -/
def growByReallocates (list : ArrayList T) (n : Int) : Bool :=
  decide (list.size + n ≥ (list.elements.length : Int))

/-- A call that can append values: `Add(values...)` or `Insert(index, values...)`. -/
inductive AppendCall (T : Type) where
  | add (values : List T)
  | insert (index : Int) (values : List T)

/-- The values a call supplies. -/
def AppendCall.values : AppendCall T → List T
  | .add values => values
  | .insert _ values => values

/-- The effect of the call on the list. -/
def AppendCall.apply : AppendCall T → ArrayList T → Option (ArrayList T)
  | .add values, list => list.Add values
  | .insert index values, list => list.Insert index values

/-- Whether the call reallocates: `Add` always reaches `growBy(len(values))`; `Insert`
reaches it on the in-range path and, through `Add`, when `index == size`, and returns
without it for any other index. -/
def AppendCall.reallocates : AppendCall T → ArrayList T → Bool
  | .add values, list => list.growByReallocates values.length
  | .insert index values, list =>
    (list.withinRange index || decide (index = list.size)) &&
      list.growByReallocates values.length

/-- A client making the calls in order; the second component counts the calls that
reallocated. -/
def runCounting : List (AppendCall T) → ArrayList T → Option (ArrayList T × Nat)
  | [], list => some (list, 0)
  | call :: rest, list => do
    let next ← call.apply list
    let (final, r) ← runCounting rest next
    some (final, (if call.reallocates list then 1 else 0) + r)

/-! ## Arithmetic of the `float32` conversion -/

theorem le_two_mul_float32OfNat (x : Nat) : x ≤ 2 * float32OfNat x := by
  unfold float32OfNat
  by_cases hx : x < 2 ^ 24
  · rw [if_pos hx]; omega
  · rw [if_neg hx]
    dsimp only
    have hx0 : x ≠ 0 := by intro h; simp [h] at hx
    have hp : 2 ^ (Nat.log2 x - 23) ≤ x :=
      le_trans (Nat.pow_le_pow_right (by decide) (Nat.sub_le _ _)) (Nat.log2_self_le hx0)
    have hp0 : 0 < 2 ^ (Nat.log2 x - 23) := Nat.two_pow_pos _
    generalize 2 ^ (Nat.log2 x - 23) = p at hp hp0 ⊢
    have hq : 0 < x / p := Nat.div_pos hp hp0
    have hr : x % p < p := Nat.mod_lt _ hp0
    have hx' : p * (x / p) + x % p = x := Nat.div_add_mod x p
    have hm : p ≤ x / p * p := Nat.le_mul_of_pos_left p hq
    have hc : p * (x / p) = x / p * p := Nat.mul_comm _ _
    have hs : (x / p + 1) * p = x / p * p + p := by ring
    split_ifs <;> omega

theorem float32OfNat_of_lt (x : Nat) (h : x < 2 ^ 24) : float32OfNat x = x := by
  rw [float32OfNat, if_pos h]

theorem float32_natCast (x : Nat) : float32 (x : Int) = (float32OfNat x : Nat) := by
  have h : ¬ ((x : Int) < 0) := by omega
  simp [float32, h]

/-! ## The Go primitives at natural-number indices -/

theorem index?_natCast (xs : List T) (k : Nat) : index? xs (k : Int) = xs[k]? := by
  unfold index?
  by_cases h : k < xs.length
  · have h2 : (0 : Int) ≤ k ∧ (k : Int) < xs.length := by omega
    simp [h2]
  · have h2 : ¬ ((0 : Int) ≤ k ∧ (k : Int) < xs.length) := by omega
    rw [if_neg h2, List.getElem?_eq_none (by omega)]

theorem assign?_natCast (xs : List T) (k : Nat) (v : T) (h : k < xs.length) :
    assign? xs (k : Int) v = some (xs.set k v) := by
  have h2 : (0 : Int) ≤ k ∧ (k : Int) < xs.length := by omega
  simp [assign?, h2]

theorem make?_natCast (k : Nat) :
    (make? (k : Int) : Option (List T)) = some (List.replicate k default) := by
  simp [make?]

theorem slice?_natCast (xs : List T) (a b : Nat) (hab : a ≤ b) (hb : b ≤ xs.length) :
    slice? xs (a : Int) (b : Int) = some ((xs.drop a).take (b - a)) := by
  have h2 : (0 : Int) ≤ a ∧ (a : Int) ≤ b ∧ (b : Int) ≤ xs.length := by omega
  have h3 : ((b : Int) - (a : Int)).toNat = b - a := by omega
  simp [slice?, h2, h3]

theorem copyFrom?_natCast (xs : List T) (a : Nat) (src : List T) (ha : a ≤ xs.length) :
    copyFrom? xs (a : Int) src =
      some (xs.take a ++ src.take (min (xs.length - a) src.length) ++
        xs.drop (a + min (xs.length - a) src.length)) := by
  have h2 : (0 : Int) ≤ a ∧ (a : Int) ≤ xs.length := by omega
  simp [copyFrom?, h2]

/-- Copying a source that fits overwrites exactly the window it is copied onto. -/
theorem copyFrom?_window (a d rest src : List T) (h : d.length = src.length) :
    copyFrom? (a ++ d ++ rest) (a.length : Int) src = some (a ++ src ++ rest) := by
  rw [copyFrom?_natCast _ _ _ (by simp)]
  have hm : min ((a ++ d ++ rest).length - a.length) src.length = src.length := by
    simp; omega
  rw [hm, List.append_assoc a d rest, List.take_left, List.take_length,
    ← h, ← List.append_assoc, ← List.length_append, List.drop_left]

theorem slice?_window (a b c : List T) :
    slice? (a ++ b ++ c) (a.length : Int) ((a.length + b.length : Nat) : Int) = some b := by
  rw [slice?_natCast _ _ _ (by omega) (by simp)]
  simp

theorem assign?_window (a : List T) (e : T) (b : List T) (v : T) :
    assign? (a ++ e :: b) (a.length : Int) v = some (a ++ v :: b) := by
  rw [assign?_natCast _ _ _ (by simp)]
  simp

theorem index?_window (a : List T) (e : T) (b : List T) :
    index? (a ++ e :: b) (a.length : Int) = some e := by
  rw [index?_natCast, List.getElem?_append_right (le_refl _)]
  simp

/-- A buffer cut at two positions. -/
theorem exists_split3 (es : List T) (i n : Nat) (hi : i ≤ n) (hn : n ≤ es.length) :
    ∃ a b c, es = a ++ b ++ c ∧ a.length = i ∧ b.length = n - i ∧
      a = es.take i ∧ a ++ b = es.take n := by
  refine ⟨es.take i, (es.drop i).take (n - i), es.drop n, ?_, ?_, ?_, rfl, ?_⟩
  · have h1 : (es.drop i).drop (n - i) = es.drop n := by
      rw [List.drop_drop]; congr 1; omega
    rw [List.append_assoc, ← h1, List.take_append_drop, List.take_append_drop]
  · simp; omega
  · simp; omega
  · have h2 : es.take n = (es.take n).take i ++ (es.take n).drop i :=
      (List.take_append_drop i _).symm
    rw [h2, List.take_take, min_eq_left hi, List.drop_take]

/-! ## The private methods on a well-formed list -/

theorem resize_natCast (es : List T) (sz : Int) (c : Nat) :
    resize (⟨es, sz⟩ : ArrayList T) (c : Int) =
      some ⟨es.take c ++ List.replicate (c - es.length) default, sz⟩ := by
  unfold resize
  rw [make?_natCast]
  have h := copyFrom?_natCast (List.replicate c (default : T)) 0 es (Nat.zero_le _)
  simp only [Nat.cast_zero] at h
  simp only [Option.bind_eq_bind, Option.some_bind, h]
  simp only [List.take_zero, List.nil_append, List.length_replicate, Nat.sub_zero, Nat.zero_add,
    List.drop_replicate, List.take_take]
  rcases Nat.le_total c es.length with h1 | h1
  · rw [min_eq_left h1, Nat.sub_self, Nat.sub_eq_zero_of_le h1]
  · rw [min_eq_right h1, List.take_of_length_le (le_refl _), List.take_of_length_le h1]

/-- Growing keeps the buffer as a leading segment, pads it with zero values and leaves
room for `n` more elements. -/
theorem growBy_natCast (es : List T) (sz n : Nat) (h : sz ≤ es.length) :
    ∃ k, growBy (⟨es, sz⟩ : ArrayList T) (n : Int) =
        some ⟨es ++ List.replicate k default, sz⟩ ∧ sz + n ≤ es.length + k ∧
      (k = if sz + n ≥ es.length then 2 * float32OfNat (es.length + n) - es.length else 0) := by
  unfold growBy
  dsimp only
  by_cases hc : sz + n ≥ es.length
  · have hc' : (sz : Int) + n ≥ es.length := by omega
    have hf := le_two_mul_float32OfNat (es.length + n)
    have e1 : growthFactor * float32 ((es.length : Int) + n) =
        ((2 * float32OfNat (es.length + n) : Nat) : Int) := by
      rw [← Nat.cast_add, float32_natCast, growthFactor]; push_cast; ring
    rw [if_pos hc', e1, resize_natCast, if_pos hc]
    refine ⟨_, ?_, ?_, rfl⟩
    · rw [List.take_of_length_le (by omega)]
    · omega
  · have hc' : ¬ ((sz : Int) + n ≥ es.length) := by omega
    rw [if_neg hc', if_neg hc]
    exact ⟨0, by simp, by omega, rfl⟩

theorem addLoop_natCast (vs : List T) : ∀ (es : List T) (sz : Nat),
    sz + vs.length ≤ es.length →
    addLoop vs (⟨es, sz⟩ : ArrayList T) =
      some ⟨es.take sz ++ vs ++ es.drop (sz + vs.length), ((sz + vs.length : Nat) : Int)⟩ := by
  induction vs with
  | nil => intro es sz _; simp [addLoop]
  | cons v vs ih =>
    intro es sz h
    simp only [List.length_cons] at h
    obtain ⟨a, b, c, rfl, ha, hb, -, -⟩ := exists_split3 es sz (sz + 1) (by omega) (by omega)
    obtain ⟨e, rfl⟩ : ∃ e, b = [e] := by
      match b, hb with
      | [e], _ => exact ⟨e, rfl⟩
      | [], hb => simp at hb
      | _ :: _ :: _, hb => simp at hb
    subst ha
    have hset : assign? (a ++ [e] ++ c) (a.length : Int) v = some (a ++ [v] ++ c) := by
      simpa using assign?_window a e c v
    simp only [addLoop, hset, Option.bind_eq_bind, Option.some_bind]
    have := ih (a ++ [v] ++ c) (a.length + 1) (by simp at h ⊢; omega)
    rw [show ((a.length : Int) + 1) = ((a.length + 1 : Nat) : Int) by push_cast; rfl, this]
    have t1 : List.take (a.length + 1) (a ++ [v] ++ c) = a ++ [v] := by
      rw [List.take_left']; simp
    have d1 : ∀ (y : T), List.drop (a.length + 1 + vs.length) (a ++ [y] ++ c) = c.drop vs.length := by
      intro y
      rw [show a.length + 1 + vs.length = (a ++ [y]).length + vs.length by simp, List.drop_append]
    have t2 : List.take a.length (a ++ [e] ++ c) = a := by
      rw [List.append_assoc, List.take_left]
    simp only [List.length_cons]
    rw [t1, d1, t2, show a.length + (vs.length + 1) = a.length + 1 + vs.length by omega, d1]
    simp

/-! ## The public methods on a well-formed list -/

theorem Inv.exists_nat {list : ArrayList T} (h : Inv list) :
    ∃ (es : List T) (n : Nat), list = ⟨es, (n : Int)⟩ ∧ n ≤ es.length := by
  obtain ⟨es, sz⟩ := list
  obtain ⟨h0, h1⟩ := h
  dsimp only at h0 h1
  lift sz to ℕ using h0
  exact ⟨es, sz, rfl, by omega⟩

theorem inv_natCast (es : List T) (n : Nat) :
    Inv (⟨es, (n : Int)⟩ : ArrayList T) ↔ n ≤ es.length := by
  unfold Inv
  dsimp only
  omega

theorem Values_natCast (es : List T) (n : Nat) (h : n ≤ es.length) :
    Values (⟨es, (n : Int)⟩ : ArrayList T) = some (es.take n) := by
  unfold Values
  dsimp only
  have hs := slice?_natCast es 0 n (Nat.zero_le _) h
  have hc := copyFrom?_natCast (List.replicate n (default : T)) 0 (es.take n) (Nat.zero_le _)
  simp only [Nat.cast_zero] at hs hc
  rw [make?_natCast]
  simp only [Option.bind_eq_bind, Option.some_bind, hs, List.drop_zero, Nat.sub_zero, hc]
  simp [List.length_take, min_eq_left h]

theorem withinRange_natCast (es : List T) (n : Nat) (index : Int) :
    withinRange (⟨es, (n : Int)⟩ : ArrayList T) index = decide (0 ≤ index ∧ index < n) := by
  simp [withinRange, Bool.decide_and]

theorem Add_natCast (es : List T) (n : Nat) (vs : List T) (h : n ≤ es.length) :
    ∃ k, Add (⟨es, (n : Int)⟩ : ArrayList T) vs =
        some ⟨es.take n ++ vs ++ (es ++ List.replicate k default).drop (n + vs.length),
          ((n + vs.length : Nat) : Int)⟩ ∧
      n + vs.length ≤ es.length + k ∧
      (k = if n + vs.length ≥ es.length then
            2 * float32OfNat (es.length + vs.length) - es.length else 0) := by
  obtain ⟨k, hg, hk, hk'⟩ := growBy_natCast es n vs.length h
  refine ⟨k, ?_, hk, hk'⟩
  unfold Add
  rw [hg]
  simp only [Option.bind_eq_bind, Option.some_bind]
  rw [addLoop_natCast vs _ n (by simp; omega), List.take_append_of_le_length h]

theorem Set_natCast_inRange (es : List T) (n i : Nat) (v : T) (hi : i < n) (h : n ≤ es.length) :
    Set (⟨es, (n : Int)⟩ : ArrayList T) (i : Int) v = some ⟨es.set i v, (n : Int)⟩ := by
  unfold Set
  have hw : withinRange (⟨es, (n : Int)⟩ : ArrayList T) (i : Int) = true := by
    rw [withinRange_natCast]; simp; omega
  simp [hw, assign?_natCast es i v (by omega)]

theorem Set_natCast_atSize (es : List T) (n : Nat) (v : T) :
    Set (⟨es, (n : Int)⟩ : ArrayList T) (n : Int) v = Add ⟨es, (n : Int)⟩ [v] := by
  unfold Set
  have hw : withinRange (⟨es, (n : Int)⟩ : ArrayList T) (n : Int) = false := by
    rw [withinRange_natCast]; simp
  simp [hw]

theorem Set_natCast_outside (es : List T) (n : Nat) (index : Int) (v : T)
    (ho : index < 0 ∨ (n : Int) < index) :
    Set (⟨es, (n : Int)⟩ : ArrayList T) index v = some ⟨es, (n : Int)⟩ := by
  unfold Set
  have hw : withinRange (⟨es, (n : Int)⟩ : ArrayList T) index = false := by
    rw [withinRange_natCast]; simp; omega
  have hne : index ≠ (n : Int) := by omega
  simp [hw, hne]

theorem shrink_natCast (es : List T) (n : Nat) (h : n ≤ es.length) :
    shrink (⟨es, (n : Int)⟩ : ArrayList T) =
      some ⟨if (n : Int) ≤ float32 (es.length : Int) / shrinkFactorInv then es.take n else es,
        (n : Int)⟩ := by
  unfold shrink
  dsimp only
  split_ifs with hc
  · rw [resize_natCast, Nat.sub_eq_zero_of_le h]; simp
  · rfl

/-- The buffer after the element shift of `Remove`, before the shrink policy is applied:
the last live slot keeps its old content (the zero value only when the removed element
was the last one). -/
theorem Remove_window (a : List T) (e : T) (b c : List T) :
    Remove (⟨a ++ e :: (b ++ c), ((a.length + 1 + b.length : Nat) : Int)⟩ : ArrayList T)
        (a.length : Int) =
      shrink ⟨a ++ b ++ (default :: b).getLast (List.cons_ne_nil _ _) :: c,
        ((a.length + b.length : Nat) : Int)⟩ := by
  unfold Remove
  have hw : withinRange (⟨a ++ e :: (b ++ c), ((a.length + 1 + b.length : Nat) : Int)⟩ :
      ArrayList T) (a.length : Int) = true := by
    rw [withinRange_natCast]; simp; omega
  have h1 : assign? (a ++ e :: (b ++ c)) (a.length : Int) default = some (a ++ default :: (b ++ c)) :=
    assign?_window a e (b ++ c) default
  have h2 : slice? (a ++ default :: (b ++ c)) ((a.length : Int) + 1)
      ((a.length + 1 + b.length : Nat) : Int) = some b := by
    have := slice?_window (a ++ [default]) b c
    simpa using this
  have h3 : copyFrom? (a ++ default :: (b ++ c)) (a.length : Int) b =
      some (a ++ b ++ (default :: b).getLast (List.cons_ne_nil _ _) :: c) := by
    have hd : (default :: b) = (default :: b).dropLast ++
        [(default :: b).getLast (List.cons_ne_nil _ _)] :=
      (List.dropLast_append_getLast _).symm
    have := copyFrom?_window a (default :: b).dropLast
      ((default :: b).getLast (List.cons_ne_nil _ _) :: c) b (by simp)
    rw [← this]
    congr 1
    rw [List.append_assoc a, ← List.cons_append]
    conv_lhs => rw [hd]
    simp
  have h4 : (((a.length + 1 + b.length : Nat) : Int) - 1) = ((a.length + b.length : Nat) : Int) := by
    push_cast; ring
  simp only [hw, Bool.not_true, Bool.false_eq_true, if_false, h1, Option.bind_eq_bind,
    Option.some_bind, h2, h3, h4]

/-- An in-range `Insert`: the values land between the two parts of the live contents; the
slack behind them is what growth left, minus the slots now used. -/
theorem Insert_window (a b c vs : List T) (hb : b ≠ []) :
    ∃ k, Insert (⟨a ++ b ++ c, ((a.length + b.length : Nat) : Int)⟩ : ArrayList T)
          (a.length : Int) vs =
        some ⟨a ++ vs ++ b ++ (c ++ List.replicate k default).drop vs.length,
          ((a.length + b.length + vs.length : Nat) : Int)⟩ ∧
      vs.length ≤ c.length + k ∧
      (k = if a.length + b.length + vs.length ≥ (a ++ b ++ c).length then
            2 * float32OfNat ((a ++ b ++ c).length + vs.length) - (a ++ b ++ c).length
          else 0) := by
  have hbl : 0 < b.length := List.length_pos.mpr hb
  obtain ⟨k, hg, hk, hk'⟩ := growBy_natCast (a ++ b ++ c) (a.length + b.length) vs.length
    (by simp)
  have hk2 : vs.length ≤ c.length + k := by simp at hk; omega
  refine ⟨k, ?_, hk2, hk'⟩
  unfold Insert
  have hw : withinRange (⟨a ++ b ++ c, ((a.length + b.length : Nat) : Int)⟩ : ArrayList T)
      (a.length : Int) = true := by
    rw [withinRange_natCast]; simp; omega
  simp only [hw, Bool.not_true, Bool.false_eq_true, if_false, hg, Option.bind_eq_bind,
    Option.some_bind]
  generalize hc' : c ++ List.replicate k default = c'
  have hcl : vs.length ≤ c'.length := by rw [← hc']; simp; omega
  have hbuf : a ++ b ++ c ++ List.replicate k default = a ++ b ++ c' := by
    rw [← hc']; simp
  rw [hbuf]
  have e1 : (((a.length + b.length : Nat) : Int) + (vs.length : Int) - (vs.length : Int)) =
      ((a.length + b.length : Nat) : Int) := by omega
  rw [e1, slice?_window a b c']
  simp only [Option.some_bind]
  -- the window of the first copy
  obtain ⟨y1, y2, r, hy, hy1, hy2, -, -⟩ := exists_split3 (b ++ c') vs.length
    (vs.length + b.length) (by omega) (by simp; omega)
  have hy2' : y2.length = b.length := by omega
  have hr : r = c'.drop vs.length := by
    have h1 : (b ++ c').drop (vs.length + b.length) = r := by
      rw [hy, List.drop_left']; simp; omega
    rw [← h1, Nat.add_comm, List.drop_append]
  have hbuf2 : a ++ b ++ c' = (a ++ y1) ++ y2 ++ r := by
    rw [List.append_assoc a b c', hy]; simp
  have e2 : ((a.length : Int) + (vs.length : Int)) = (((a ++ y1).length : Nat) : Int) := by
    simp [hy1]
  rw [hbuf2, e2, copyFrom?_window (a ++ y1) y2 r b hy2']
  simp only [Option.some_bind]
  have hbuf3 : a ++ y1 ++ b ++ r = a ++ y1 ++ (b ++ r) := by simp
  rw [hbuf3, copyFrom?_window a y1 (b ++ r) vs hy1, hr]
  simp

theorem Insert_natCast_atSize (es : List T) (n : Nat) (vs : List T) :
    Insert (⟨es, (n : Int)⟩ : ArrayList T) (n : Int) vs = Add ⟨es, (n : Int)⟩ vs := by
  unfold Insert
  have hw : withinRange (⟨es, (n : Int)⟩ : ArrayList T) (n : Int) = false := by
    rw [withinRange_natCast]; simp
  simp [hw]

theorem Insert_natCast_outside (es : List T) (n : Nat) (index : Int) (vs : List T)
    (ho : index < 0 ∨ (n : Int) < index) :
    Insert (⟨es, (n : Int)⟩ : ArrayList T) index vs = some ⟨es, (n : Int)⟩ := by
  unfold Insert
  have hw : withinRange (⟨es, (n : Int)⟩ : ArrayList T) index = false := by
    rw [withinRange_natCast]; simp; omega
  have hne : index ≠ (n : Int) := by omega
  simp [hw, hne]

theorem Remove_natCast_outside (es : List T) (n : Nat) (index : Int)
    (ho : index < 0 ∨ (n : Int) ≤ index) :
    Remove (⟨es, (n : Int)⟩ : ArrayList T) index = some ⟨es, (n : Int)⟩ := by
  unfold Remove
  have hw : withinRange (⟨es, (n : Int)⟩ : ArrayList T) index = false := by
    rw [withinRange_natCast]; simp; omega
  simp [hw]

theorem Swap_natCast_inRange (es : List T) (n i j : Nat) (hi : i < n) (hj : j < n)
    (h : n ≤ es.length) :
    Swap (⟨es, (n : Int)⟩ : ArrayList T) (i : Int) (j : Int) =
      some ⟨(es.set i (es.get ⟨j, by omega⟩)).set j (es.get ⟨i, by omega⟩), (n : Int)⟩ := by
  unfold Swap
  have hwi : withinRange (⟨es, (n : Int)⟩ : ArrayList T) (i : Int) = true := by
    rw [withinRange_natCast]; simp; omega
  have hwj : withinRange (⟨es, (n : Int)⟩ : ArrayList T) (j : Int) = true := by
    rw [withinRange_natCast]; simp; omega
  have gi : index? es (i : Int) = some (es.get ⟨i, by omega⟩) := by
    rw [index?_natCast, List.get_eq_getElem, List.getElem?_eq_getElem]
  have gj : index? es (j : Int) = some (es.get ⟨j, by omega⟩) := by
    rw [index?_natCast, List.get_eq_getElem, List.getElem?_eq_getElem]
  have si : assign? es (i : Int) (es.get ⟨j, by omega⟩) =
      some (es.set i (es.get ⟨j, by omega⟩)) := assign?_natCast es i _ (by omega)
  have sj : assign? (es.set i (es.get ⟨j, by omega⟩)) (j : Int) (es.get ⟨i, by omega⟩) =
      some ((es.set i (es.get ⟨j, by omega⟩)).set j (es.get ⟨i, by omega⟩)) :=
    assign?_natCast _ j _ (by simp; omega)
  simp only [hwi, hwj, Bool.and_self, if_true, gj, gi, si, sj, Option.bind_eq_bind,
    Option.some_bind]

theorem Swap_natCast_outside (es : List T) (n : Nat) (i j : Int)
    (ho : i < 0 ∨ (n : Int) ≤ i ∨ j < 0 ∨ (n : Int) ≤ j) :
    Swap (⟨es, (n : Int)⟩ : ArrayList T) i j = some ⟨es, (n : Int)⟩ := by
  unfold Swap
  have hw : (withinRange (⟨es, (n : Int)⟩ : ArrayList T) i &&
      withinRange (⟨es, (n : Int)⟩ : ArrayList T) j) = false := by
    rw [withinRange_natCast, withinRange_natCast]
    simp only [Bool.and_eq_false_iff, decide_eq_false_iff_not]
    omega
  simp [hw]

theorem length_slicesSort (xs : List T) : (slicesSort xs).length = xs.length := by
  simp [slicesSort, List.length_insertionSort]

/-! ## The representation invariant -/

theorem Add_inv {list list' : ArrayList T} (vs : List T) (h : Inv list)
    (hr : list.Add vs = some list') : Inv list' := by
  obtain ⟨es, n, rfl, hn⟩ := h.exists_nat
  obtain ⟨k, hk, hle, -⟩ := Add_natCast es n vs hn
  rw [hk] at hr
  cases hr
  rw [inv_natCast]
  simp
  omega

theorem Set_inv {list list' : ArrayList T} (index : Int) (v : T) (h : Inv list)
    (hr : list.Set index v = some list') : Inv list' := by
  obtain ⟨es, n, rfl, hn⟩ := h.exists_nat
  rcases lt_trichotomy index (n : Int) with hlt | heq | hgt
  · rcases lt_or_le index 0 with h0 | h0
    · rw [Set_natCast_outside es n index v (Or.inl h0)] at hr
      cases hr; exact h
    · lift index to ℕ using h0
      rw [Set_natCast_inRange es n index v (by omega) hn] at hr
      cases hr
      rw [inv_natCast]; simpa using hn
  · subst heq
    rw [Set_natCast_atSize] at hr
    exact Add_inv _ h hr
  · rw [Set_natCast_outside es n index v (Or.inr hgt)] at hr
    cases hr; exact h


theorem Insert_inv {list list' : ArrayList T} (index : Int) (vs : List T) (h : Inv list)
    (hr : list.Insert index vs = some list') : Inv list' := by
  obtain ⟨es, n, rfl, hn⟩ := h.exists_nat
  rcases lt_trichotomy index (n : Int) with hlt | heq | hgt
  · rcases lt_or_le index 0 with h0 | h0
    · rw [Insert_natCast_outside es n index vs (Or.inl h0)] at hr
      cases hr; exact h
    · lift index to ℕ using h0
      obtain ⟨a, b, c, rfl, ha, hb, -, -⟩ := exists_split3 es index n (by omega) hn
      have hbne : b ≠ [] := by
        intro hb0; rw [hb0] at hb; simp at hb; omega
      obtain ⟨k, hk, hle, -⟩ := Insert_window a b c vs hbne
      have hsz : ((a.length + b.length : Nat) : Int) = (n : Int) := by omega
      rw [hsz, ha] at hk
      rw [hk] at hr
      cases hr
      rw [inv_natCast]
      simp
      omega
  · subst heq
    rw [Insert_natCast_atSize] at hr
    exact Add_inv _ h hr
  · rw [Insert_natCast_outside es n index vs (Or.inr hgt)] at hr
    cases hr; exact h

/-- An in-range index cuts the buffer into the part before it, the element at it, the
live part behind it and the slack. -/
theorem exists_split_at (es : List T) (i n : Nat) (hi : i < n) (hn : n ≤ es.length) :
    ∃ a e b c, es = a ++ e :: (b ++ c) ∧ a.length = i ∧ a.length + 1 + b.length = n ∧
      es.take n = a ++ e :: b := by
  obtain ⟨a, b0, c, rfl, ha, hb, -, htk⟩ := exists_split3 es i n (by omega) hn
  match b0, hb with
  | [], hb => simp at hb; omega
  | e :: b, hb =>
    refine ⟨a, e, b, c, by simp, ha, ?_, by simpa using htk.symm⟩
    simp at hb; omega

theorem Remove_inv {list list' : ArrayList T} (index : Int) (h : Inv list)
    (hr : list.Remove index = some list') : Inv list' := by
  obtain ⟨es, n, rfl, hn⟩ := h.exists_nat
  rcases lt_or_le index (n : Int) with hlt | hge
  · rcases lt_or_le index 0 with h0 | h0
    · rw [Remove_natCast_outside es n index (Or.inl h0)] at hr
      cases hr; exact h
    · lift index to ℕ using h0
      obtain ⟨a, e, b, c, rfl, ha, hab, -⟩ := exists_split_at es index n (by omega) hn
      rw [← hab, ← ha, Remove_window, shrink_natCast _ _ (by simp)] at hr
      cases hr
      rw [inv_natCast]
      split_ifs
      · simp
      · simp
  · rw [Remove_natCast_outside es n index (Or.inr hge)] at hr
    cases hr; exact h

theorem Swap_inv {list list' : ArrayList T} (i j : Int) (h : Inv list)
    (hr : list.Swap i j = some list') : Inv list' := by
  obtain ⟨es, n, rfl, hn⟩ := h.exists_nat
  by_cases hin : (0 ≤ i ∧ i < (n : Int)) ∧ (0 ≤ j ∧ j < (n : Int))
  · obtain ⟨⟨hi0, hi⟩, hj0, hj⟩ := hin
    lift i to ℕ using hi0
    lift j to ℕ using hj0
    rw [Swap_natCast_inRange es n i j (by omega) (by omega) hn] at hr
    cases hr
    rw [inv_natCast]; simpa using hn
  · rw [Swap_natCast_outside es n i j (by omega)] at hr
    cases hr; exact h

theorem SortList_inv {list : ArrayList T} (h : Inv list) : Inv list.SortList := by
  unfold SortList
  split_ifs
  · exact h
  · obtain ⟨h0, h1⟩ := h
    exact ⟨h0, by simpa [length_slicesSort] using h1⟩

theorem Clear_inv (list : ArrayList T) : Inv list.Clear := by
  simp [Clear, Inv]

theorem New_inv {list : ArrayList T} (vs : List T) (hr : New vs = some list) : Inv list := by
  have h0 : Inv (⟨[], 0⟩ : ArrayList T) := by simp [Inv]
  unfold New at hr
  dsimp only at hr
  split_ifs at hr
  · exact Add_inv vs h0 hr
  · cases hr; exact h0

theorem Op.apply_inv {list list' : ArrayList T} (op : Op T) (h : Inv list)
    (hr : op.apply list = some list') : Inv list' := by
  cases op with
  | add vs => exact Add_inv vs h hr
  | set i v => exact Set_inv i v h hr
  | insert i vs => exact Insert_inv i vs h hr
  | remove i => exact Remove_inv i h hr
  | swap i j => exact Swap_inv i j h hr
  | sort => cases hr; exact SortList_inv h
  | clear => cases hr; exact Clear_inv _

/-- Every reachable list satisfies the representation invariant. -/
theorem Reachable.inv {list : ArrayList T} (h : Reachable list) : Inv list := by
  induction h with
  | new vs l hnew => exact New_inv vs hnew
  | step op l l' _ happ ih => exact Op.apply_inv op ih happ

/-! ## Effect of the methods on the logical contents -/

theorem Values_of_inv {list : ArrayList T} (h : Inv list) :
    list.Values = some (list.elements.take list.size.toNat) := by
  obtain ⟨es, n, rfl, hn⟩ := h.exists_nat
  simpa using Values_natCast es n hn

theorem Add_spec {list : ArrayList T} (h : Inv list) (vs : List T) :
    ∃ xs list', list.Values = some xs ∧ list.Add vs = some list' ∧
      list'.Values = some (xs ++ vs) ∧ list'.size = list.size + vs.length ∧ Inv list' := by
  obtain ⟨es, n, rfl, hn⟩ := h.exists_nat
  obtain ⟨k, hk, hle, -⟩ := Add_natCast es n vs hn
  have hinv : Inv (⟨es.take n ++ vs ++ (es ++ List.replicate k default).drop (n + vs.length),
      ((n + vs.length : Nat) : Int)⟩ : ArrayList T) := Add_inv vs h hk
  refine ⟨es.take n, _, Values_natCast es n hn, hk, ?_, by push_cast; rfl, hinv⟩
  rw [Values_natCast _ _ ((inv_natCast _ _).mp hinv), List.take_left']
  simp [min_eq_left hn]

theorem addAll_spec (vss : List (List T)) : ∀ {list : ArrayList T}, Inv list →
    ∃ xs list', list.Values = some xs ∧ addAll list vss = some list' ∧
      list'.Values = some (xs ++ vss.flatten) ∧
      list'.size = list.size + vss.flatten.length ∧ Inv list' := by
  induction vss with
  | nil =>
    intro list h
    exact ⟨_, list, Values_of_inv h, rfl, by simpa using Values_of_inv h, by simp, h⟩
  | cons vs rest ih =>
    intro list h
    obtain ⟨xs, l1, hv, ha, hv1, hs1, hi1⟩ := Add_spec h vs
    obtain ⟨xs1, l2, hv1', ha2, hv2, hs2, hi2⟩ := ih hi1
    rw [hv1] at hv1'
    cases hv1'
    refine ⟨xs, l2, hv, ?_, ?_, ?_, hi2⟩
    · simp [addAll, ha, ha2]
    · simpa using hv2
    · rw [hs2, hs1]; simp; omega

theorem Insert_spec {list : ArrayList T} (h : Inv list) (index : Int) (vs : List T)
    (hi : 0 ≤ index ∧ index ≤ list.size) :
    ∃ xs list', list.Values = some xs ∧ list.Insert index vs = some list' ∧
      list'.Values = some (xs.take index.toNat ++ vs ++ xs.drop index.toNat) ∧
      list'.size = list.size + vs.length ∧ Inv list' := by
  obtain ⟨es, n, rfl, hn⟩ := h.exists_nat
  obtain ⟨h0, hle⟩ := hi
  dsimp only at hle
  lift index to ℕ using h0
  rcases Nat.lt_or_ge index n with hlt | hge
  · obtain ⟨a, b, c, rfl, ha, hb, -, htk⟩ := exists_split3 es index n (by omega) hn
    have hbne : b ≠ [] := by
      intro hb0; rw [hb0] at hb; simp at hb; omega
    obtain ⟨k, hk, hkle, -⟩ := Insert_window a b c vs hbne
    have hsz : a.length + b.length = n := by omega
    rw [hsz, ha] at hk
    have hinv := Insert_inv _ vs h hk
    refine ⟨a ++ b, _, ?_, hk, ?_, by push_cast; rfl, hinv⟩
    · rw [Values_natCast _ _ hn, ← htk]
    · rw [Values_natCast _ _ ((inv_natCast _ _).mp hinv)]
      have e1 : n + vs.length = (a ++ vs ++ b).length := by simp; omega
      rw [e1, List.take_left, Int.toNat_ofNat, ← ha, List.take_left, List.drop_left]
  · have heq : index = n := by omega
    subst heq
    obtain ⟨xs, l', hv, ha, hv', hs, hinv⟩ := Add_spec h vs
    rw [Values_natCast _ _ hn] at hv
    cases hv
    refine ⟨_, l', Values_natCast _ _ hn, by rw [Insert_natCast_atSize]; exact ha, ?_, hs, hinv⟩
    have hl : (es.take index).length ≤ index := by simp
    rw [hv', Int.toNat_ofNat, List.take_of_length_le hl, List.drop_of_length_le hl]
    simp

theorem eraseIdx_length_append (a : List T) (e : T) (b : List T) :
    (a ++ e :: b).eraseIdx a.length = a ++ b := by
  induction a with
  | nil => rfl
  | cons x a ih => simp [ih]

theorem Remove_spec {list : ArrayList T} (h : Inv list) (index : Int)
    (hi : 0 ≤ index ∧ index < list.size) :
    ∃ xs list', list.Values = some xs ∧ list.Remove index = some list' ∧
      list'.Values = some (xs.eraseIdx index.toNat) ∧
      list'.size = list.size - 1 ∧ Inv list' := by
  obtain ⟨es, n, rfl, hn⟩ := h.exists_nat
  obtain ⟨h0, hlt⟩ := hi
  dsimp only at hlt
  lift index to ℕ using h0
  obtain ⟨a, e, b, c, rfl, ha, hab, htk⟩ := exists_split_at es index n (by omega) hn
  have hr : Remove (⟨a ++ e :: (b ++ c), (n : Int)⟩ : ArrayList T) (index : Int) =
      some ⟨if ((a.length + b.length : Nat) : Int) ≤
            float32 ((a ++ b ++ (default :: b).getLast (List.cons_ne_nil _ _) :: c).length : Int) /
              shrinkFactorInv
          then (a ++ b ++ (default :: b).getLast (List.cons_ne_nil _ _) :: c).take
            (a.length + b.length)
          else a ++ b ++ (default :: b).getLast (List.cons_ne_nil _ _) :: c,
        ((a.length + b.length : Nat) : Int)⟩ := by
    rw [← hab, ← ha, Remove_window, shrink_natCast _ _ (by simp)]
  have hinv := Remove_inv _ h hr
  refine ⟨a ++ e :: b, _, ?_, hr, ?_, by dsimp only; omega, hinv⟩
  · rw [Values_natCast _ _ hn, htk]
  · rw [Values_natCast _ _ ((inv_natCast _ _).mp hinv), Int.toNat_ofNat, ← ha,
      eraseIdx_length_append]
    split_ifs
    · rw [List.take_take, min_self, ← List.length_append, List.take_left]
    · rw [← List.length_append, List.take_left]

theorem Get_spec {list : ArrayList T} (h : Inv list) (index : Int) :
    ∃ xs, list.Values = some xs ∧
      (0 ≤ index ∧ index < list.size →
        ∃ e, xs[index.toNat]? = some e ∧ list.Get index = some ((e, true), list)) ∧
      (index < 0 ∨ list.size ≤ index → list.Get index = some ((default, false), list)) := by
  obtain ⟨es, n, rfl, hn⟩ := h.exists_nat
  refine ⟨_, Values_natCast es n hn, ?_, ?_⟩
  · rintro ⟨h0, hlt⟩
    dsimp only at hlt
    lift index to ℕ using h0
    have hw : withinRange (⟨es, (n : Int)⟩ : ArrayList T) (index : Int) = true := by
      rw [withinRange_natCast]; simp; omega
    have hlen : index < es.length := by omega
    refine ⟨es.get ⟨index, hlen⟩, ?_, ?_⟩
    · rw [Int.toNat_ofNat, List.getElem?_take_of_lt (by omega), List.get_eq_getElem,
        List.getElem?_eq_getElem]
    · unfold Get
      simp only [hw, Bool.not_true, Bool.false_eq_true, if_false, index?_natCast,
        List.getElem?_eq_getElem hlen, Option.bind_eq_bind, Option.some_bind,
        List.get_eq_getElem]
  · intro ho
    dsimp only at ho
    have hw : withinRange (⟨es, (n : Int)⟩ : ArrayList T) index = false := by
      rw [withinRange_natCast]; simp; omega
    simp [Get, hw]

theorem Set_spec {list : ArrayList T} (h : Inv list) (index : Int) (v : T)
    (hi : 0 ≤ index ∧ index < list.size) :
    ∃ xs list', list.Values = some xs ∧ list.Set index v = some list' ∧
      list'.Values = some (xs.set index.toNat v) ∧ list'.size = list.size ∧ Inv list' := by
  obtain ⟨es, n, rfl, hn⟩ := h.exists_nat
  obtain ⟨h0, hlt⟩ := hi
  dsimp only at hlt
  lift index to ℕ using h0
  have hs := Set_natCast_inRange es n index v (by omega) hn
  have hinv := Set_inv _ v h hs
  refine ⟨_, _, Values_natCast es n hn, hs, ?_, rfl, hinv⟩
  rw [Values_natCast _ _ ((inv_natCast _ _).mp hinv), Int.toNat_ofNat, List.set_take]

theorem containsScan_spec (es : List T) (sz : Int) (v : T) : ∀ (idxs : List Nat),
    (∀ i ∈ idxs, i < es.length) →
    containsScan (⟨es, sz⟩ : ArrayList T) v idxs = some (decide (∃ i ∈ idxs, es[i]? = some v)) := by
  intro idxs
  induction idxs with
  | nil => intro _; simp [containsScan]
  | cons i rest ih =>
    intro hb
    have hi : i < es.length := hb i (List.mem_cons_self _ _)
    have ih' := ih (fun j hj => hb j (List.mem_cons_of_mem _ hj))
    unfold containsScan
    simp only [index?_natCast, List.getElem?_eq_getElem hi, Option.bind_eq_bind,
      Option.some_bind, ih']
    by_cases he : es[i] = v
    · simp [he, List.getElem?_eq_getElem hi]
    · simp [he, List.getElem?_eq_getElem hi]

theorem mem_take_iff_exists (es : List T) (n : Nat) (v : T) (_hn : n ≤ es.length) :
    (∃ i ∈ List.range n, es[i]? = some v) ↔ v ∈ es.take n := by
  rw [List.mem_iff_getElem?]
  constructor
  · rintro ⟨i, hi, he⟩
    rw [List.mem_range] at hi
    exact ⟨i, by rw [List.getElem?_take_of_lt hi]; exact he⟩
  · rintro ⟨i, he⟩
    have hi : i < n := by
      by_contra hc
      rw [List.getElem?_eq_none (by simp; omega)] at he
      cases he
    exact ⟨i, List.mem_range.mpr hi, by rw [← he, List.getElem?_take_of_lt hi]⟩

theorem Contains_spec {list : ArrayList T} (h : Inv list) (vs : List T) :
    ∃ xs, list.Values = some xs ∧ list.Contains vs = some (decide (∀ v ∈ vs, v ∈ xs)) := by
  obtain ⟨es, n, rfl, hn⟩ := h.exists_nat
  refine ⟨_, Values_natCast es n hn, ?_⟩
  induction vs with
  | nil => simp [Contains]
  | cons v rest ih =>
    unfold Contains
    have hs := containsScan_spec es (n : Int) v (List.range n)
      (fun i hi => by rw [List.mem_range] at hi; omega)
    rw [show decide (∃ i ∈ List.range n, es[i]? = some v) = decide (v ∈ es.take n) from
      decide_eq_decide.mpr (mem_take_iff_exists es n v hn)] at hs
    simp only [Int.toNat_ofNat, hs, Option.bind_eq_bind, Option.some_bind, ih]
    by_cases hv : v ∈ es.take n
    · simp [hv]
    · simp [hv]

/-! ## The contract of the public methods -/

/-- C1: on every reachable list, `Add(vs...)` (also with no values) succeeds, `Size()` grows
by `len(vs)` and `Values()` becomes the old `Values()` followed by `vs` in argument order;
hence after any sequence of `Add` calls on an empty list `Size()` is the number of values
added and `Values()` is their concatenation in the order supplied. -/
theorem add_appends (list : ArrayList T) (h : Reachable list) :
    (∀ vs : List T, ∃ xs list', list.Values = some xs ∧ list.Add vs = some list' ∧
        list'.Values = some (xs ++ vs) ∧ list'.Size = list.Size + vs.length) ∧
    (∀ vss : List (List T), list.Size = 0 →
      ∃ list', addAll list vss = some list' ∧ list'.Values = some vss.flatten ∧
        list'.Size = vss.flatten.length) := by
  constructor
  · intro vs
    obtain ⟨xs, l', hv, ha, hv', hs, -⟩ := Add_spec h.inv vs
    exact ⟨xs, l', hv, ha, hv', hs⟩
  · intro vss h0
    obtain ⟨xs, l', hv, ha, hv', hs, -⟩ := addAll_spec vss h.inv
    have hx : xs = [] := by
      rw [Values_of_inv h.inv, show list.size = 0 from h0] at hv
      simpa using hv.symm
    subst hx
    refine ⟨l', ha, by simpa using hv', ?_⟩
    rw [Size, hs, show list.size = 0 from h0]
    simp

theorem add_appends_witness :
    Reachable (⟨[], 0⟩ : ArrayList Int) ∧
    ((∀ vs : List Int, ∃ xs list', (⟨[], 0⟩ : ArrayList Int).Values = some xs ∧
        (⟨[], 0⟩ : ArrayList Int).Add vs = some list' ∧
        list'.Values = some (xs ++ vs) ∧
        list'.Size = (⟨[], 0⟩ : ArrayList Int).Size + vs.length) ∧
    (∀ vss : List (List Int), (⟨[], 0⟩ : ArrayList Int).Size = 0 →
      ∃ list', addAll (⟨[], 0⟩ : ArrayList Int) vss = some list' ∧
        list'.Values = some vss.flatten ∧ list'.Size = vss.flatten.length)) :=
  ⟨Reachable.new [] _ (by decide), add_appends _ (Reachable.new [] _ (by decide))⟩

/-- C2: on every reachable list with contents `xs`, `Insert(index, vs...)` with
`0 <= index <= Size()` succeeds, `Values()` becomes `xs[0:index] ++ vs ++ xs[index:]` and
`Size()` grows by `len(vs)`; with any other index the list (contents, size and buffer) is
left as it was. -/
theorem insert_values (list : ArrayList T) (h : Reachable list) (index : Int) (vs : List T) :
    ∃ xs, list.Values = some xs ∧
      (0 ≤ index ∧ index ≤ list.Size →
        ∃ list', list.Insert index vs = some list' ∧
          list'.Values = some (xs.take index.toNat ++ vs ++ xs.drop index.toNat) ∧
          list'.Size = list.Size + vs.length) ∧
      (index < 0 ∨ list.Size < index → list.Insert index vs = some list) := by
  refine ⟨_, Values_of_inv h.inv, ?_, ?_⟩
  · intro hi
    obtain ⟨xs, l', hv, ha, hv', hs, -⟩ := Insert_spec h.inv index vs hi
    rw [Values_of_inv h.inv] at hv
    cases hv
    exact ⟨l', ha, hv', hs⟩
  · intro ho
    obtain ⟨es, n, rfl, hn⟩ := h.inv.exists_nat
    exact Insert_natCast_outside es n index vs ho

theorem insert_values_witness :
    Reachable (⟨[1, 2, 0, 0], 2⟩ : ArrayList Int) ∧
    ∃ xs, (⟨[1, 2, 0, 0], 2⟩ : ArrayList Int).Values = some xs ∧
      (0 ≤ (1 : Int) ∧ (1 : Int) ≤ (⟨[1, 2, 0, 0], 2⟩ : ArrayList Int).Size →
        ∃ list', (⟨[1, 2, 0, 0], 2⟩ : ArrayList Int).Insert 1 [7, 8] = some list' ∧
          list'.Values = some (xs.take (1 : Int).toNat ++ [7, 8] ++ xs.drop (1 : Int).toNat) ∧
          list'.Size = (⟨[1, 2, 0, 0], 2⟩ : ArrayList Int).Size + ([7, 8] : List Int).length) ∧
      ((1 : Int) < 0 ∨ (⟨[1, 2, 0, 0], 2⟩ : ArrayList Int).Size < 1 →
        (⟨[1, 2, 0, 0], 2⟩ : ArrayList Int).Insert 1 [7, 8] = some ⟨[1, 2, 0, 0], 2⟩) :=
  ⟨Reachable.new [1, 2] _ (by decide),
    insert_values _ (Reachable.new [1, 2] _ (by decide)) 1 [7, 8]⟩

/-- C3: on every reachable list with contents `xs`, `Remove(index)` with
`0 <= index < Size()` succeeds, `Values()` becomes `xs` with position `index` deleted and
`Size()` drops by one, whether or not the shrink policy reallocates; with an index out of
range the list (contents, size and buffer) is left as it was. -/
theorem remove_values (list : ArrayList T) (h : Reachable list) (index : Int) :
    ∃ xs, list.Values = some xs ∧
      (0 ≤ index ∧ index < list.Size →
        ∃ list', list.Remove index = some list' ∧
          list'.Values = some (xs.eraseIdx index.toNat) ∧ list'.Size = list.Size - 1) ∧
      (index < 0 ∨ list.Size ≤ index → list.Remove index = some list) := by
  refine ⟨_, Values_of_inv h.inv, ?_, ?_⟩
  · intro hi
    obtain ⟨xs, l', hv, ha, hv', hs, -⟩ := Remove_spec h.inv index hi
    rw [Values_of_inv h.inv] at hv
    cases hv
    exact ⟨l', ha, hv', hs⟩
  · intro ho
    obtain ⟨es, n, rfl, hn⟩ := h.inv.exists_nat
    exact Remove_natCast_outside es n index ho

theorem remove_values_witness :
    Reachable (⟨[1, 2, 3, 4, 5, 0, 0, 0, 0, 0], 5⟩ : ArrayList Int) ∧
    ∃ xs, (⟨[1, 2, 3, 4, 5, 0, 0, 0, 0, 0], 5⟩ : ArrayList Int).Values = some xs ∧
      (0 ≤ (2 : Int) ∧ (2 : Int) < (⟨[1, 2, 3, 4, 5, 0, 0, 0, 0, 0], 5⟩ : ArrayList Int).Size →
        ∃ list', (⟨[1, 2, 3, 4, 5, 0, 0, 0, 0, 0], 5⟩ : ArrayList Int).Remove 2 = some list' ∧
          list'.Values = some (xs.eraseIdx (2 : Int).toNat) ∧
          list'.Size = (⟨[1, 2, 3, 4, 5, 0, 0, 0, 0, 0], 5⟩ : ArrayList Int).Size - 1) ∧
      ((2 : Int) < 0 ∨ (⟨[1, 2, 3, 4, 5, 0, 0, 0, 0, 0], 5⟩ : ArrayList Int).Size ≤ 2 →
        (⟨[1, 2, 3, 4, 5, 0, 0, 0, 0, 0], 5⟩ : ArrayList Int).Remove 2 =
          some ⟨[1, 2, 3, 4, 5, 0, 0, 0, 0, 0], 5⟩) :=
  ⟨Reachable.new [1, 2, 3, 4, 5] _ (by decide),
    remove_values _ (Reachable.new [1, 2, 3, 4, 5] _ (by decide)) 2⟩

/-- C4: on every reachable list, `Get(i)` returns `(Values()[i], true)` when
`0 <= i < Size()` and `(zero value, false)` when `i < 0` or `i >= Size()`; the list after
the call is the list before it. -/
theorem get_total (list : ArrayList T) (h : Reachable list) (i : Int) :
    ∃ xs, list.Values = some xs ∧
      (0 ≤ i ∧ i < list.Size →
        ∃ e, xs[i.toNat]? = some e ∧ list.Get i = some ((e, true), list)) ∧
      (i < 0 ∨ list.Size ≤ i → list.Get i = some ((default, false), list)) :=
  Get_spec h.inv i

theorem get_total_witness :
    Reachable (⟨[1, 2, 0, 0], 2⟩ : ArrayList Int) ∧
    ∃ xs, (⟨[1, 2, 0, 0], 2⟩ : ArrayList Int).Values = some xs ∧
      (0 ≤ (1 : Int) ∧ (1 : Int) < (⟨[1, 2, 0, 0], 2⟩ : ArrayList Int).Size →
        ∃ e, xs[(1 : Int).toNat]? = some e ∧
          (⟨[1, 2, 0, 0], 2⟩ : ArrayList Int).Get 1 = some ((e, true), ⟨[1, 2, 0, 0], 2⟩)) ∧
      ((1 : Int) < 0 ∨ (⟨[1, 2, 0, 0], 2⟩ : ArrayList Int).Size ≤ 1 →
        (⟨[1, 2, 0, 0], 2⟩ : ArrayList Int).Get 1 =
          some ((default, false), ⟨[1, 2, 0, 0], 2⟩)) :=
  ⟨Reachable.new [1, 2] _ (by decide), get_total _ (Reachable.new [1, 2] _ (by decide)) 1⟩

/-- C5: on every reachable list with contents `xs`, `Set(index, v)` has three behaviours:
with `0 <= index < Size()` position `index` of `Values()` is replaced by `v` and `Size()`
stays; with `index == Size()` the call is `Add(v)` and `Values()` becomes `xs ++ [v]`;
with any other index the list (contents, size and buffer) is left as it was. -/
theorem set_three_ways (list : ArrayList T) (h : Reachable list) (index : Int) (v : T) :
    ∃ xs, list.Values = some xs ∧
      (0 ≤ index ∧ index < list.Size →
        ∃ list', list.Set index v = some list' ∧
          list'.Values = some (xs.set index.toNat v) ∧ list'.Size = list.Size) ∧
      (index = list.Size →
        list.Set index v = list.Add [v] ∧
        ∃ list', list.Set index v = some list' ∧ list'.Values = some (xs ++ [v]) ∧
          list'.Size = list.Size + 1) ∧
      (index < 0 ∨ list.Size < index → list.Set index v = some list) := by
  refine ⟨_, Values_of_inv h.inv, ?_, ?_, ?_⟩
  · intro hi
    obtain ⟨xs, l', hv, ha, hv', hs, -⟩ := Set_spec h.inv index v hi
    rw [Values_of_inv h.inv] at hv
    cases hv
    exact ⟨l', ha, hv', hs⟩
  · intro he
    obtain ⟨xs, l', hv, ha, hv', hs, -⟩ := Add_spec h.inv [v]
    rw [Values_of_inv h.inv] at hv
    cases hv
    obtain ⟨es, n, rfl, hn⟩ := h.inv.exists_nat
    have he' : index = (n : Int) := he
    subst he'
    rw [Set_natCast_atSize]
    exact ⟨rfl, l', ha, hv', by simpa using hs⟩
  · intro ho
    obtain ⟨es, n, rfl, hn⟩ := h.inv.exists_nat
    exact Set_natCast_outside es n index v ho

theorem set_three_ways_witness :
    Reachable (⟨[], 0⟩ : ArrayList Int) ∧
    ∃ xs, (⟨[], 0⟩ : ArrayList Int).Values = some xs ∧
      (0 ≤ (0 : Int) ∧ (0 : Int) < (⟨[], 0⟩ : ArrayList Int).Size →
        ∃ list', (⟨[], 0⟩ : ArrayList Int).Set 0 9 = some list' ∧
          list'.Values = some (xs.set (0 : Int).toNat 9) ∧
          list'.Size = (⟨[], 0⟩ : ArrayList Int).Size) ∧
      ((0 : Int) = (⟨[], 0⟩ : ArrayList Int).Size →
        (⟨[], 0⟩ : ArrayList Int).Set 0 9 = (⟨[], 0⟩ : ArrayList Int).Add [9] ∧
        ∃ list', (⟨[], 0⟩ : ArrayList Int).Set 0 9 = some list' ∧
          list'.Values = some (xs ++ [9]) ∧
          list'.Size = (⟨[], 0⟩ : ArrayList Int).Size + 1) ∧
      ((0 : Int) < 0 ∨ (⟨[], 0⟩ : ArrayList Int).Size < 0 →
        (⟨[], 0⟩ : ArrayList Int).Set 0 9 = some ⟨[], 0⟩) :=
  ⟨Reachable.new [] _ (by decide), set_three_ways _ (Reachable.new [] _ (by decide)) 0 9⟩

/-- C6 (the code departs from it): `New(3,1,2)` followed by `Sort()` has `Values()`
`[0,0,0]`, not `[1,2,3]`: the three zero slots of slack are sorted in front of the
contents.  Likewise `New(1)` followed by `Sort()` has `Values()` `[0]`, so `Sort()` is not
even a no-op at size 1. -/
theorem sort_moves_slack_into_contents :
    (∃ list : ArrayList Int, New [3, 1, 2] = some list ∧ Reachable list ∧
      list.Values = some [3, 1, 2] ∧ list.SortList.Values = some [0, 0, 0]) ∧
    (∃ list : ArrayList Int, New [1] = some list ∧ Reachable list ∧ list.Size = 1 ∧
      list.Values = some [1] ∧ list.SortList.Values = some [0]) :=
  ⟨⟨⟨[3, 1, 2, 0, 0, 0], 3⟩, by decide, Reachable.new [3, 1, 2] _ (by decide), by decide,
      by decide⟩,
    ⟨⟨[1, 0], 1⟩, by decide, Reachable.new [1] _ (by decide), by decide, by decide,
      by decide⟩⟩

/-- C7 (the code departs from it): on `New(1,2,3)`, whose `Values()` holds no `0`,
`IndexOf(0)` is `3`, an index that is not below `Size() == 3`: the scan runs over the slack
slots of the buffer. -/
theorem indexOf_finds_slack :
    ∃ list : ArrayList Int, New [1, 2, 3] = some list ∧ Reachable list ∧
      list.Values = some [1, 2, 3] ∧ list.Size = 3 ∧ list.IndexOf 0 = 3 :=
  ⟨⟨[1, 2, 3, 0, 0, 0], 3⟩, by decide, Reachable.new [1, 2, 3] _ (by decide), by decide,
    by decide, by decide⟩

/-- C8: on every reachable list, `Contains(vs...)` is true exactly when every value of `vs`
occurs in `Values()`; with no arguments it is true. -/
theorem contains_all (list : ArrayList T) (h : Reachable list) :
    (∀ vs : List T, ∃ xs, list.Values = some xs ∧
      list.Contains vs = some (decide (∀ v ∈ vs, v ∈ xs))) ∧
    list.Contains [] = some true :=
  ⟨fun vs => Contains_spec h.inv vs, rfl⟩

theorem contains_all_witness :
    Reachable (⟨[1, 2, 0, 0], 2⟩ : ArrayList Int) ∧
    ((∀ vs : List Int, ∃ xs, (⟨[1, 2, 0, 0], 2⟩ : ArrayList Int).Values = some xs ∧
      (⟨[1, 2, 0, 0], 2⟩ : ArrayList Int).Contains vs = some (decide (∀ v ∈ vs, v ∈ xs))) ∧
    (⟨[1, 2, 0, 0], 2⟩ : ArrayList Int).Contains [] = some true) :=
  ⟨Reachable.new [1, 2] _ (by decide), contains_all _ (Reachable.new [1, 2] _ (by decide))⟩

/-- C9 (the code departs from it): on `New(1,2,3)`, `Contains(0)` is false while
`IndexOf(0)` is `3`, not `-1`. -/
theorem contains_indexOf_disagree :
    ∃ list : ArrayList Int, New [1, 2, 3] = some list ∧ Reachable list ∧
      list.Contains [0] = some false ∧ list.IndexOf 0 ≠ -1 :=
  ⟨⟨[1, 2, 3, 0, 0, 0], 3⟩, by decide, Reachable.new [1, 2, 3] _ (by decide), by decide,
    by decide⟩

/-- C10: on every reachable list and for `0 <= i <= Size()`, `Insert(i, v)` followed by
`Remove(i)` succeeds and gives back the `Values()` and the `Size()` from before. -/
theorem insert_remove_roundtrip (list : ArrayList T) (h : Reachable list) (i : Int) (v : T)
    (hi : 0 ≤ i ∧ i ≤ list.Size) :
    ∃ xs l1 l2, list.Values = some xs ∧ list.Insert i [v] = some l1 ∧
      l1.Remove i = some l2 ∧ l2.Values = some xs ∧ l2.Size = list.Size := by
  obtain ⟨xs, l1, hv, h1, hv1, hs1, hinv1⟩ := Insert_spec h.inv i [v] hi
  have hi1 : 0 ≤ i ∧ i < l1.size := by
    rw [hs1]; simp; exact ⟨hi.1, by have := hi.2; simp [Size] at this; omega⟩
  obtain ⟨xs1, l2, hv1', h2, hv2, hs2, -⟩ := Remove_spec hinv1 i hi1
  rw [hv1] at hv1'
  cases hv1'
  refine ⟨xs, l1, l2, hv, h1, h2, ?_, ?_⟩
  · rw [hv2]
    have hlen : i.toNat ≤ xs.length := by
      have hx := Values_of_inv h.inv
      rw [hv] at hx
      cases hx
      have := h.inv.2
      have := hi.2
      simp [Size] at this
      simp
      omega
    have e1 : (xs.take i.toNat).length = i.toNat := by simp; omega
    have := eraseIdx_length_append (xs.take i.toNat) v (xs.drop i.toNat)
    rw [e1] at this
    simp only [List.append_assoc, List.singleton_append]
    rw [this, List.take_append_drop]
  · rw [Size, hs2, hs1]; simp [Size]

theorem insert_remove_roundtrip_witness :
    (0 ≤ (1 : Int) ∧ (1 : Int) ≤ (⟨[1, 2, 0, 0], 2⟩ : ArrayList Int).Size) ∧
    ∃ xs l1 l2, (⟨[1, 2, 0, 0], 2⟩ : ArrayList Int).Values = some xs ∧
      (⟨[1, 2, 0, 0], 2⟩ : ArrayList Int).Insert 1 [7] = some l1 ∧
      l1.Remove 1 = some l2 ∧ l2.Values = some xs ∧
      l2.Size = (⟨[1, 2, 0, 0], 2⟩ : ArrayList Int).Size :=
  ⟨by decide,
    insert_remove_roundtrip _ (Reachable.new [1, 2] _ (by decide)) 1 7 (by decide)⟩

theorem Swap_spec {list : ArrayList T} (h : Inv list) (i j : Int)
    (hi : 0 ≤ i ∧ i < list.size) (hj : 0 ≤ j ∧ j < list.size) :
    ∃ xs ei ej list', list.Values = some xs ∧ xs[i.toNat]? = some ei ∧
      xs[j.toNat]? = some ej ∧ list.Swap i j = some list' ∧
      list'.Values = some ((xs.set i.toNat ej).set j.toNat ei) ∧
      list'.size = list.size ∧ list'.elements.length = list.elements.length := by
  obtain ⟨es, n, rfl, hn⟩ := h.exists_nat
  obtain ⟨hi0, hi⟩ := hi
  obtain ⟨hj0, hj⟩ := hj
  dsimp only at hi hj
  lift i to ℕ using hi0
  lift j to ℕ using hj0
  have hs := Swap_natCast_inRange es n i j (by omega) (by omega) hn
  have hinv := Swap_inv _ _ h hs
  refine ⟨_, es.get ⟨i, by omega⟩, es.get ⟨j, by omega⟩, _, Values_natCast es n hn, ?_, ?_, hs,
    ?_, rfl, by simp⟩
  · rw [Int.toNat_ofNat, List.getElem?_take_of_lt (by omega), List.get_eq_getElem,
      List.getElem?_eq_getElem]
  · rw [Int.toNat_ofNat, List.getElem?_take_of_lt (by omega), List.get_eq_getElem,
      List.getElem?_eq_getElem]
  · rw [Values_natCast _ _ ((inv_natCast _ _).mp hinv), Int.toNat_ofNat, Int.toNat_ofNat,
      List.set_take, List.set_take]

/-- C11: on every reachable list, `Swap(i, j)` with both indices in `[0, Size())` exchanges
positions `i` and `j` of `Values()` and changes no other position, nor `Size()`, nor the
capacity; when at least one index is out of range the list is left as it was. -/
theorem swap_all_or_nothing (list : ArrayList T) (h : Reachable list) (i j : Int) :
    ∃ xs, list.Values = some xs ∧
      ((0 ≤ i ∧ i < list.Size) ∧ (0 ≤ j ∧ j < list.Size) →
        ∃ ei ej list', xs[i.toNat]? = some ei ∧ xs[j.toNat]? = some ej ∧
          list.Swap i j = some list' ∧
          list'.Values = some ((xs.set i.toNat ej).set j.toNat ei) ∧
          list'.Size = list.Size ∧ list'.capacity = list.capacity) ∧
      (¬ ((0 ≤ i ∧ i < list.Size) ∧ (0 ≤ j ∧ j < list.Size)) →
        list.Swap i j = some list) := by
  refine ⟨_, Values_of_inv h.inv, ?_, ?_⟩
  · rintro ⟨hi, hj⟩
    obtain ⟨xs, ei, ej, l', hv, hei, hej, hs, hv', hsz, hcap⟩ := Swap_spec h.inv i j hi hj
    rw [Values_of_inv h.inv] at hv
    cases hv
    exact ⟨ei, ej, l', hei, hej, hs, hv', hsz, hcap⟩
  · intro ho
    obtain ⟨es, n, rfl, hn⟩ := h.inv.exists_nat
    simp only [Size] at ho
    exact Swap_natCast_outside es n i j (by omega)

theorem swap_all_or_nothing_witness :
    Reachable (⟨[1, 2, 3, 0, 0, 0], 3⟩ : ArrayList Int) ∧
    ∃ xs, (⟨[1, 2, 3, 0, 0, 0], 3⟩ : ArrayList Int).Values = some xs ∧
      ((0 ≤ (0 : Int) ∧ (0 : Int) < (⟨[1, 2, 3, 0, 0, 0], 3⟩ : ArrayList Int).Size) ∧
          (0 ≤ (5 : Int) ∧ (5 : Int) < (⟨[1, 2, 3, 0, 0, 0], 3⟩ : ArrayList Int).Size) →
        ∃ ei ej list', xs[(0 : Int).toNat]? = some ei ∧ xs[(5 : Int).toNat]? = some ej ∧
          (⟨[1, 2, 3, 0, 0, 0], 3⟩ : ArrayList Int).Swap 0 5 = some list' ∧
          list'.Values = some ((xs.set (0 : Int).toNat ej).set (5 : Int).toNat ei) ∧
          list'.Size = (⟨[1, 2, 3, 0, 0, 0], 3⟩ : ArrayList Int).Size ∧
          list'.capacity = (⟨[1, 2, 3, 0, 0, 0], 3⟩ : ArrayList Int).capacity) ∧
      (¬ ((0 ≤ (0 : Int) ∧ (0 : Int) < (⟨[1, 2, 3, 0, 0, 0], 3⟩ : ArrayList Int).Size) ∧
          (0 ≤ (5 : Int) ∧ (5 : Int) < (⟨[1, 2, 3, 0, 0, 0], 3⟩ : ArrayList Int).Size)) →
        (⟨[1, 2, 3, 0, 0, 0], 3⟩ : ArrayList Int).Swap 0 5 = some ⟨[1, 2, 3, 0, 0, 0], 3⟩) :=
  ⟨Reachable.new [1, 2, 3] _ (by decide),
    swap_all_or_nothing _ (Reachable.new [1, 2, 3] _ (by decide)) 0 5⟩

/-! ## Absence of run-time panics -/

theorem Set_total {list : ArrayList T} (h : Inv list) (index : Int) (v : T) :
    ∃ list', list.Set index v = some list' := by
  rcases lt_trichotomy index list.size with hlt | heq | hgt
  · rcases lt_or_le index 0 with h0 | h0
    · obtain ⟨es, n, rfl, hn⟩ := h.exists_nat
      exact ⟨_, Set_natCast_outside es n index v (Or.inl h0)⟩
    · obtain ⟨_, l', _, hs, _⟩ := Set_spec h index v ⟨h0, hlt⟩
      exact ⟨l', hs⟩
  · obtain ⟨es, n, rfl, hn⟩ := h.exists_nat
    have he : index = (n : Int) := heq
    subst he
    obtain ⟨_, l', _, ha, _⟩ := Add_spec h [v]
    exact ⟨l', by rw [Set_natCast_atSize]; exact ha⟩
  · obtain ⟨es, n, rfl, hn⟩ := h.exists_nat
    exact ⟨_, Set_natCast_outside es n index v (Or.inr hgt)⟩

theorem Insert_total {list : ArrayList T} (h : Inv list) (index : Int) (vs : List T) :
    ∃ list', list.Insert index vs = some list' := by
  by_cases hi : 0 ≤ index ∧ index ≤ list.size
  · obtain ⟨_, l', _, hs, _⟩ := Insert_spec h index vs hi
    exact ⟨l', hs⟩
  · obtain ⟨es, n, rfl, hn⟩ := h.exists_nat
    dsimp only at hi
    exact ⟨_, Insert_natCast_outside es n index vs (by omega)⟩

theorem Remove_total {list : ArrayList T} (h : Inv list) (index : Int) :
    ∃ list', list.Remove index = some list' := by
  by_cases hi : 0 ≤ index ∧ index < list.size
  · obtain ⟨_, l', _, hs, _⟩ := Remove_spec h index hi
    exact ⟨l', hs⟩
  · obtain ⟨es, n, rfl, hn⟩ := h.exists_nat
    dsimp only at hi
    exact ⟨_, Remove_natCast_outside es n index (by omega)⟩

theorem Swap_total {list : ArrayList T} (h : Inv list) (i j : Int) :
    ∃ list', list.Swap i j = some list' := by
  by_cases hi : (0 ≤ i ∧ i < list.size) ∧ (0 ≤ j ∧ j < list.size)
  · obtain ⟨_, _, _, l', _, _, _, hs, _⟩ := Swap_spec h i j hi.1 hi.2
    exact ⟨l', hs⟩
  · obtain ⟨es, n, rfl, hn⟩ := h.exists_nat
    dsimp only at hi
    exact ⟨_, Swap_natCast_outside es n i j (by omega)⟩

theorem Get_total {list : ArrayList T} (h : Inv list) (index : Int) :
    ∃ r, list.Get index = some (r, list) := by
  obtain ⟨xs, _, hin, hout⟩ := Get_spec h index
  by_cases hi : 0 ≤ index ∧ index < list.size
  · obtain ⟨e, _, hg⟩ := hin hi
    exact ⟨_, hg⟩
  · exact ⟨_, hout (by omega)⟩

theorem New_total (vs : List T) : ∃ list : ArrayList T, New vs = some list := by
  have h0 : Inv (⟨[], 0⟩ : ArrayList T) := by simp [Inv]
  unfold New
  dsimp only
  split_ifs
  · obtain ⟨_, l', _, ha, _⟩ := Add_spec h0 vs
    exact ⟨l', ha⟩
  · exact ⟨_, rfl⟩

theorem Op.apply_total {list : ArrayList T} (h : Inv list) (op : Op T) :
    ∃ list', op.apply list = some list' := by
  cases op with
  | add vs =>
    obtain ⟨_, l', _, ha, _⟩ := Add_spec h vs
    exact ⟨l', ha⟩
  | set i v => exact Set_total h i v
  | insert i vs => exact Insert_total h i vs
  | remove i => exact Remove_total h i
  | swap i j => exact Swap_total h i j
  | sort => exact ⟨_, rfl⟩
  | clear => exact ⟨_, rfl⟩

/-- C12: no public operation faults.  `New` succeeds for every argument list, and on every
reachable list (also after `Clear` and after a tight-fit shrink) each of `Add`, `Get`,
`Set`, `Insert`, `Remove`, `Swap`, `Contains` and `Values` returns a result for every
argument, so the out-of-bounds branch of the index, slice and `make` primitives is never
taken.  `IndexOf`, `Sort` and `Clear` evaluate no index or slice expression at all and are
total functions of the embedding. -/
theorem no_operation_faults (list : ArrayList T) (h : Reachable list) :
    (∀ vs : List T, ∃ l : ArrayList T, New vs = some l) ∧
    (∀ vs, ∃ l, list.Add vs = some l) ∧
    (∀ i, ∃ r, list.Get i = some (r, list)) ∧
    (∀ i v, ∃ l, list.Set i v = some l) ∧
    (∀ i vs, ∃ l, list.Insert i vs = some l) ∧
    (∀ i, ∃ l, list.Remove i = some l) ∧
    (∀ i j, ∃ l, list.Swap i j = some l) ∧
    (∀ vs, ∃ b, list.Contains vs = some b) ∧
    (∃ xs, list.Values = some xs) ∧
    (∀ op : Op T, ∃ l, op.apply list = some l ∧ Reachable l) := by
  have hinv := h.inv
  refine ⟨New_total, fun vs => Op.apply_total hinv (.add vs), Get_total hinv,
    Set_total hinv, Insert_total hinv, Remove_total hinv, Swap_total hinv, ?_, ?_, ?_⟩
  · intro vs
    obtain ⟨_, _, hc⟩ := Contains_spec hinv vs
    exact ⟨_, hc⟩
  · exact ⟨_, Values_of_inv hinv⟩
  · intro op
    obtain ⟨l, hl⟩ := Op.apply_total hinv op
    exact ⟨l, hl, Reachable.step op list l h hl⟩

theorem no_operation_faults_witness :
    Reachable (⟨[1], 1⟩ : ArrayList Int) ∧
    ((∀ vs : List Int, ∃ l : ArrayList Int, New vs = some l) ∧
    (∀ vs, ∃ l, (⟨[1], 1⟩ : ArrayList Int).Add vs = some l) ∧
    (∀ i, ∃ r, (⟨[1], 1⟩ : ArrayList Int).Get i = some (r, ⟨[1], 1⟩)) ∧
    (∀ i v, ∃ l, (⟨[1], 1⟩ : ArrayList Int).Set i v = some l) ∧
    (∀ i vs, ∃ l, (⟨[1], 1⟩ : ArrayList Int).Insert i vs = some l) ∧
    (∀ i, ∃ l, (⟨[1], 1⟩ : ArrayList Int).Remove i = some l) ∧
    (∀ i j, ∃ l, (⟨[1], 1⟩ : ArrayList Int).Swap i j = some l) ∧
    (∀ vs, ∃ b, (⟨[1], 1⟩ : ArrayList Int).Contains vs = some b) ∧
    (∃ xs, (⟨[1], 1⟩ : ArrayList Int).Values = some xs) ∧
    (∀ op : Op Int, ∃ l, op.apply (⟨[1], 1⟩ : ArrayList Int) = some l ∧ Reachable l)) :=
  ⟨Reachable.step (.remove 1) ⟨[1, 2, 0, 0], 2⟩ _ (Reachable.new [1, 2] _ (by decide))
      (by decide),
    no_operation_faults _
      (Reachable.step (.remove 1) ⟨[1, 2, 0, 0], 2⟩ _ (Reachable.new [1, 2] _ (by decide))
        (by decide))⟩

/-- C13: every list reachable from `New` by public operations satisfies
`0 <= size <= capacity`, and every public operation applied to it returns a list that
satisfies it again. -/
theorem representation_invariant (list : ArrayList T) (h : Reachable list) :
    (0 ≤ list.Size ∧ list.Size ≤ list.capacity) ∧
    ∀ op : Op T, ∃ list', op.apply list = some list' ∧
      0 ≤ list'.Size ∧ list'.Size ≤ list'.capacity := by
  refine ⟨h.inv, fun op => ?_⟩
  obtain ⟨l, hl⟩ := Op.apply_total h.inv op
  exact ⟨l, hl, Op.apply_inv op h.inv hl⟩

theorem representation_invariant_witness :
    Reachable (⟨[1], 1⟩ : ArrayList Int) ∧
    ((0 ≤ (⟨[1], 1⟩ : ArrayList Int).Size ∧
        (⟨[1], 1⟩ : ArrayList Int).Size ≤ (⟨[1], 1⟩ : ArrayList Int).capacity) ∧
    ∀ op : Op Int, ∃ list', op.apply (⟨[1], 1⟩ : ArrayList Int) = some list' ∧
      0 ≤ list'.Size ∧ list'.Size ≤ list'.capacity) :=
  ⟨Reachable.step (.remove 1) ⟨[1, 2, 0, 0], 2⟩ _ (Reachable.new [1, 2] _ (by decide))
      (by decide),
    representation_invariant _
      (Reachable.step (.remove 1) ⟨[1, 2, 0, 0], 2⟩ _ (Reachable.new [1, 2] _ (by decide))
        (by decide))⟩

/-! ## `Clear`, `Sort` and the slack slots -/

/-- C17: after `Clear()`, `Size()` is 0, `Empty()` is true, `Values()` is empty, `Get(i)`
is `(zero value, false)` for every `i`, `Contains(x)` is false and `IndexOf(x)` is `-1` for
every `x`, and a following `Add(vs...)` gives `Values() == vs`. -/
theorem clear_forgets (list : ArrayList T) :
    list.Clear.Size = 0 ∧ list.Clear.Empty = true ∧ list.Clear.Values = some [] ∧
    (∀ i, list.Clear.Get i = some ((default, false), list.Clear)) ∧
    (∀ x, list.Clear.Contains [x] = some false) ∧
    (∀ x, list.Clear.IndexOf x = -1) ∧
    (∀ vs, ∃ list', list.Clear.Add vs = some list' ∧ list'.Values = some vs) := by
  have hinv : Inv (list.Clear) := Clear_inv list
  have hv : list.Clear.Values = some [] := by
    rw [Values_of_inv hinv]; simp [Clear]
  refine ⟨rfl, by simp [Clear, Empty], hv, ?_, ?_, ?_, ?_⟩
  · intro i
    obtain ⟨_, _, -, hout⟩ := Get_spec hinv i
    by_cases hi : i < 0
    · exact hout (Or.inl hi)
    · exact hout (Or.inr (by simp only [Clear]; omega))
  · intro x
    obtain ⟨xs, hx, hc⟩ := Contains_spec hinv [x]
    rw [hv] at hx
    cases hx
    simpa using hc
  · intro x
    simp [Clear, IndexOf]
  · intro vs
    obtain ⟨xs, l', hx, ha, hv', -⟩ := Add_spec hinv vs
    rw [hv] at hx
    cases hx
    exact ⟨l', ha, by simpa using hv'⟩

/-- C18 (the code departs from it): `New(1)` and `New(1,2)` after `Remove(1)` are reachable
lists with the same `Values()` `[1]`; the first has a zero slack slot, the second has no
slack.  `IndexOf(0)` is `1` on the first and `-1` on the second, and after `Sort()` the
first has `Values()` `[0]` and the second `[1]`. -/
theorem slack_is_observed :
    Reachable (⟨[1, 0], 1⟩ : ArrayList Int) ∧ Reachable (⟨[1], 1⟩ : ArrayList Int) ∧
    (⟨[1, 0], 1⟩ : ArrayList Int).Values = (⟨[1], 1⟩ : ArrayList Int).Values ∧
    (⟨[1, 0], 1⟩ : ArrayList Int).IndexOf 0 = 1 ∧
    (⟨[1], 1⟩ : ArrayList Int).IndexOf 0 = -1 ∧
    (⟨[1, 0], 1⟩ : ArrayList Int).SortList.Values = some [0] ∧
    (⟨[1], 1⟩ : ArrayList Int).SortList.Values = some [1] :=
  ⟨Reachable.new [1] _ (by decide),
    Reachable.step (.remove 1) ⟨[1, 2, 0, 0], 2⟩ _ (Reachable.new [1, 2] _ (by decide))
      (by decide),
    by decide, by decide, by decide, by decide, by decide⟩

/-- C19 (the code departs from it): `New(1,2,3,4,5)` followed by `Remove(2)` leaves the
buffer `[1,2,4,5,5,0,0,0,0,0]` with size 4: slot 4, the vacated last slot, still holds the
shifted element `5` and not the zero value.  The zero is written to slot `index` before
the shift, which overwrites it. -/
theorem remove_leaves_stale_slot :
    ∃ list list' : ArrayList Int, New [1, 2, 3, 4, 5] = some list ∧ Reachable list ∧
      list.Remove 2 = some list' ∧ list'.Size = 4 ∧ list'.capacity = 10 ∧
      index? list'.elements 4 = some 5 ∧ (default : Int) = 0 :=
  ⟨⟨[1, 2, 3, 4, 5, 0, 0, 0, 0, 0], 5⟩, ⟨[1, 2, 4, 5, 5, 0, 0, 0, 0, 0], 4⟩, by decide,
    Reachable.new [1, 2, 3, 4, 5] _ (by decide), by decide, by decide, by decide, by decide,
    rfl⟩

theorem sorted_slicesSort (xs : List T) : (slicesSort xs).Sorted (fun a b => a ≤ b) :=
  List.sorted_insertionSort _ xs

theorem perm_slicesSort (xs : List T) : (slicesSort xs).Perm xs :=
  List.perm_insertionSort _ xs

/-- C20: on every reachable list, `Sort()` keeps `Size()` and the capacity and leaves
`Values()` in non-decreasing order.  With at least 2 buffer slots the whole buffer, slack
included, becomes the ascending rearrangement of the old buffer and `Values()` is its first
`Size()` elements; with fewer than 2 slots the list is unchanged. -/
theorem sort_sorts_whole_buffer (list : ArrayList T) (h : Reachable list) :
    list.SortList.Size = list.Size ∧ list.SortList.capacity = list.capacity ∧
    (∃ ys, list.SortList.Values = some ys ∧ ys.Sorted (fun a b => a ≤ b)) ∧
    (2 ≤ list.capacity →
      list.SortList.elements = slicesSort list.elements ∧
      list.SortList.elements.Sorted (fun a b => a ≤ b) ∧
      list.SortList.elements.Perm list.elements ∧
      list.SortList.Values = some ((slicesSort list.elements).take list.Size.toNat)) ∧
    (list.capacity < 2 → list.SortList = list) := by
  have hinv := SortList_inv h.inv
  have hv := Values_of_inv hinv
  by_cases hc : list.elements.length < 2
  · have hsame : list.SortList = list := by simp [SortList, hc]
    refine ⟨by rw [hsame], by rw [hsame], ⟨_, hv, ?_⟩, ?_, fun _ => hsame⟩
    · rw [hsame]
      have hlen : (list.elements.take list.size.toNat).length ≤ 1 := by
        simp; omega
      match hx : list.elements.take list.size.toNat, hlen with
      | [], _ => exact List.sorted_nil
      | [a], _ => exact List.sorted_singleton a
    · intro h2
      simp only [capacity] at h2
      omega
  · have hs : list.SortList = ⟨slicesSort list.elements, list.size⟩ := by simp [SortList, hc]
    refine ⟨by rw [hs]; rfl, by rw [hs]; simp [capacity, length_slicesSort], ⟨_, hv, ?_⟩, ?_, ?_⟩
    · rw [hs]
      exact (sorted_slicesSort list.elements).sublist (List.take_sublist _ _)
    · intro _
      refine ⟨by rw [hs], by rw [hs]; exact sorted_slicesSort _,
        by rw [hs]; exact perm_slicesSort _, ?_⟩
      rw [hv, hs]
      rfl
    · intro h2
      simp only [capacity] at h2
      omega

theorem sort_sorts_whole_buffer_witness :
    Reachable (⟨[3, 1, 2, 0, 0, 0], 3⟩ : ArrayList Int) ∧
    ((⟨[3, 1, 2, 0, 0, 0], 3⟩ : ArrayList Int).SortList.Size =
        (⟨[3, 1, 2, 0, 0, 0], 3⟩ : ArrayList Int).Size ∧
    (⟨[3, 1, 2, 0, 0, 0], 3⟩ : ArrayList Int).SortList.capacity =
        (⟨[3, 1, 2, 0, 0, 0], 3⟩ : ArrayList Int).capacity ∧
    (∃ ys, (⟨[3, 1, 2, 0, 0, 0], 3⟩ : ArrayList Int).SortList.Values = some ys ∧
      ys.Sorted (fun a b => a ≤ b)) ∧
    (2 ≤ (⟨[3, 1, 2, 0, 0, 0], 3⟩ : ArrayList Int).capacity →
      (⟨[3, 1, 2, 0, 0, 0], 3⟩ : ArrayList Int).SortList.elements =
        slicesSort [3, 1, 2, 0, 0, 0] ∧
      (⟨[3, 1, 2, 0, 0, 0], 3⟩ : ArrayList Int).SortList.elements.Sorted (fun a b => a ≤ b) ∧
      (⟨[3, 1, 2, 0, 0, 0], 3⟩ : ArrayList Int).SortList.elements.Perm [3, 1, 2, 0, 0, 0] ∧
      (⟨[3, 1, 2, 0, 0, 0], 3⟩ : ArrayList Int).SortList.Values =
        some ((slicesSort [3, 1, 2, 0, 0, 0]).take
          (⟨[3, 1, 2, 0, 0, 0], 3⟩ : ArrayList Int).Size.toNat)) ∧
    ((⟨[3, 1, 2, 0, 0, 0], 3⟩ : ArrayList Int).capacity < 2 →
      (⟨[3, 1, 2, 0, 0, 0], 3⟩ : ArrayList Int).SortList = ⟨[3, 1, 2, 0, 0, 0], 3⟩)) :=
  ⟨Reachable.new [3, 1, 2] _ (by decide),
    sort_sorts_whole_buffer _ (Reachable.new [3, 1, 2] _ (by decide))⟩

/-! ## Capacity: the growth and shrink policies -/

theorem lt_two_mul_float32OfNat (x : Nat) (hx : 0 < x) : x < 2 * float32OfNat x := by
  unfold float32OfNat
  by_cases hx24 : x < 2 ^ 24
  · rw [if_pos hx24]; omega
  · rw [if_neg hx24]
    dsimp only
    have hx0 : x ≠ 0 := by omega
    have hp : 2 ^ (Nat.log2 x - 23) ≤ x :=
      le_trans (Nat.pow_le_pow_right (by decide) (Nat.sub_le _ _)) (Nat.log2_self_le hx0)
    have hp0 : 0 < 2 ^ (Nat.log2 x - 23) := Nat.two_pow_pos _
    generalize 2 ^ (Nat.log2 x - 23) = p at hp hp0 ⊢
    have hq : 0 < x / p := Nat.div_pos hp hp0
    have hr : x % p < p := Nat.mod_lt _ hp0
    have hx' : p * (x / p) + x % p = x := Nat.div_add_mod x p
    have hm : p ≤ x / p * p := Nat.le_mul_of_pos_left p hq
    have hc : p * (x / p) = x / p * p := Nat.mul_comm _ _
    have hs : (x / p + 1) * p = x / p * p + p := by ring
    split_ifs <;> omega

/-- The capacity after `Add`: `growBy` doubles `capacity + n` (through `float32`) when
`size + n >= capacity` and leaves the buffer alone otherwise. -/
theorem Add_capacity {list : ArrayList T} (h : Inv list) (vs : List T) :
    ∃ list', list.Add vs = some list' ∧ list'.size = list.size + vs.length ∧
      list'.capacity =
        if list.size + vs.length ≥ list.capacity then
          2 * float32OfNat (list.capacity + vs.length)
        else list.capacity := by
  obtain ⟨es, n, rfl, hn⟩ := h.exists_nat
  obtain ⟨k, hk, hle, hk'⟩ := Add_natCast es n vs hn
  refine ⟨_, hk, by push_cast; rfl, ?_⟩
  have hf := le_two_mul_float32OfNat (es.length + vs.length)
  simp only [capacity, List.length_append, List.length_take, List.length_drop,
    List.length_replicate, min_eq_left hn]
  by_cases hc : n + vs.length ≥ es.length
  · have hc' : (n : Int) + (vs.length : Int) ≥ (es.length : Int) := by omega
    rw [if_pos hc] at hk'
    rw [if_pos hc']
    omega
  · have hc' : ¬ ((n : Int) + (vs.length : Int) ≥ (es.length : Int)) := by omega
    rw [if_neg hc] at hk'
    rw [if_neg hc']
    omega

theorem Insert_capacity {list : ArrayList T} (h : Inv list) (index : Int) (vs : List T)
    (hi : 0 ≤ index ∧ index < list.size) :
    ∃ list', list.Insert index vs = some list' ∧ list'.size = list.size + vs.length ∧
      list'.capacity =
        if list.size + vs.length ≥ list.capacity then
          2 * float32OfNat (list.capacity + vs.length)
        else list.capacity := by
  obtain ⟨es, n, rfl, hn⟩ := h.exists_nat
  obtain ⟨h0, hlt⟩ := hi
  dsimp only at hlt
  lift index to ℕ using h0
  obtain ⟨a, b, c, rfl, ha, hb, -, -⟩ := exists_split3 es index n (by omega) hn
  have hbne : b ≠ [] := by
    intro hb0; rw [hb0] at hb; simp at hb; omega
  obtain ⟨k, hk, hle, hk'⟩ := Insert_window a b c vs hbne
  have hsz : a.length + b.length = n := by omega
  rw [hsz, ha] at hk
  refine ⟨_, hk, by push_cast; rfl, ?_⟩
  have hf := le_two_mul_float32OfNat ((a ++ b ++ c).length + vs.length)
  simp only [capacity, List.length_append, List.length_drop, List.length_replicate] at hk' hf ⊢
  by_cases hc : a.length + b.length + vs.length ≥ a.length + b.length + c.length
  · have hc' : (n : Int) + (vs.length : Int) ≥ ((a.length + b.length + c.length : Nat) : Int) := by
      omega
    rw [if_pos hc] at hk'
    rw [if_pos hc']
    omega
  · have hc' : ¬ ((n : Int) + (vs.length : Int) ≥
        ((a.length + b.length + c.length : Nat) : Int)) := by omega
    rw [if_neg hc] at hk'
    rw [if_neg hc']
    omega

/-- C14: on every reachable list with size `s` and capacity `c`, an `Add` or an in-range
`Insert` of `n` values with `c + n < 2^24` leaves the capacity `2 * (c + n)` when
`s + n >= c` (equality included) and unchanged when `s + n < c`; and after every `Add` of
at least one value `Size()` is strictly below the capacity. -/
theorem growth_policy (list : ArrayList T) (h : Reachable list) (vs : List T) :
    (∃ list', list.Add vs = some list' ∧
      (list.capacity + vs.length < 2 ^ 24 →
        (list.Size + vs.length ≥ list.capacity →
          list'.capacity = 2 * (list.capacity + vs.length)) ∧
        (list.Size + vs.length < list.capacity → list'.capacity = list.capacity)) ∧
      (vs ≠ [] → list'.Size < list'.capacity)) ∧
    (∀ index : Int, 0 ≤ index ∧ index < list.Size →
      ∃ list', list.Insert index vs = some list' ∧
        (list.capacity + vs.length < 2 ^ 24 →
          (list.Size + vs.length ≥ list.capacity →
            list'.capacity = 2 * (list.capacity + vs.length)) ∧
          (list.Size + vs.length < list.capacity → list'.capacity = list.capacity))) := by
  have hinv := h.inv
  constructor
  · obtain ⟨l', ha, hs, hc⟩ := Add_capacity hinv vs
    refine ⟨l', ha, ?_, ?_⟩
    · intro hsmall
      rw [float32OfNat_of_lt _ hsmall] at hc
      constructor
      · intro hge
        rw [hc, if_pos (by simp only [Size] at hge; exact hge)]
      · intro hlt
        rw [hc, if_neg (by simp only [Size] at hlt; omega)]
    · intro hne
      have hpos : 0 < vs.length := List.length_pos.mpr hne
      have hf := lt_two_mul_float32OfNat (list.capacity + vs.length) (by omega)
      have hle : list.size ≤ list.capacity := hinv.2
      simp only [Size]
      rw [hs, hc]
      split_ifs with hge
      · push_cast
        omega
      · omega
  · intro index hi
    obtain ⟨l', ha, hs, hc⟩ := Insert_capacity hinv index vs hi
    refine ⟨l', ha, ?_⟩
    intro hsmall
    rw [float32OfNat_of_lt _ hsmall] at hc
    constructor
    · intro hge
      rw [hc, if_pos (by simp only [Size] at hge; exact hge)]
    · intro hlt
      rw [hc, if_neg (by simp only [Size] at hlt; omega)]

theorem growth_policy_witness :
    Reachable (⟨[1, 0], 1⟩ : ArrayList Int) ∧
    ((∃ list', (⟨[1, 0], 1⟩ : ArrayList Int).Add [7] = some list' ∧
      ((⟨[1, 0], 1⟩ : ArrayList Int).capacity + ([7] : List Int).length < 2 ^ 24 →
        ((⟨[1, 0], 1⟩ : ArrayList Int).Size + ([7] : List Int).length ≥
            (⟨[1, 0], 1⟩ : ArrayList Int).capacity →
          list'.capacity = 2 * ((⟨[1, 0], 1⟩ : ArrayList Int).capacity +
            ([7] : List Int).length)) ∧
        ((⟨[1, 0], 1⟩ : ArrayList Int).Size + ([7] : List Int).length <
            (⟨[1, 0], 1⟩ : ArrayList Int).capacity →
          list'.capacity = (⟨[1, 0], 1⟩ : ArrayList Int).capacity)) ∧
      (([7] : List Int) ≠ [] → list'.Size < list'.capacity)) ∧
    (∀ index : Int, 0 ≤ index ∧ index < (⟨[1, 0], 1⟩ : ArrayList Int).Size →
      ∃ list', (⟨[1, 0], 1⟩ : ArrayList Int).Insert index [7] = some list' ∧
        ((⟨[1, 0], 1⟩ : ArrayList Int).capacity + ([7] : List Int).length < 2 ^ 24 →
          ((⟨[1, 0], 1⟩ : ArrayList Int).Size + ([7] : List Int).length ≥
              (⟨[1, 0], 1⟩ : ArrayList Int).capacity →
            list'.capacity = 2 * ((⟨[1, 0], 1⟩ : ArrayList Int).capacity +
              ([7] : List Int).length)) ∧
          ((⟨[1, 0], 1⟩ : ArrayList Int).Size + ([7] : List Int).length <
              (⟨[1, 0], 1⟩ : ArrayList Int).capacity →
            list'.capacity = (⟨[1, 0], 1⟩ : ArrayList Int).capacity)))) :=
  ⟨Reachable.new [1] _ (by decide), growth_policy _ (Reachable.new [1] _ (by decide)) [7]⟩

theorem Remove_capacity {list : ArrayList T} (h : Inv list) (index : Int)
    (hi : 0 ≤ index ∧ index < list.size) :
    ∃ list', list.Remove index = some list' ∧ list'.size = list.size - 1 ∧
      (list'.capacity : Int) =
        if list.size - 1 ≤ float32 (list.capacity : Int) / shrinkFactorInv then list.size - 1
        else (list.capacity : Int) := by
  obtain ⟨es, n, rfl, hn⟩ := h.exists_nat
  obtain ⟨h0, hlt⟩ := hi
  dsimp only at hlt
  lift index to ℕ using h0
  obtain ⟨a, e, b, c, rfl, ha, hab, -⟩ := exists_split_at es index n (by omega) hn
  have hlen : (a ++ b ++ (default :: b).getLast (List.cons_ne_nil _ _) :: c).length =
      (a ++ e :: (b ++ c)).length := by
    simp; omega
  have hr : Remove (⟨a ++ e :: (b ++ c), (n : Int)⟩ : ArrayList T) (index : Int) =
      some ⟨if ((a.length + b.length : Nat) : Int) ≤
            float32 ((a ++ b ++ (default :: b).getLast (List.cons_ne_nil _ _) :: c).length : Int) /
              shrinkFactorInv
          then (a ++ b ++ (default :: b).getLast (List.cons_ne_nil _ _) :: c).take
            (a.length + b.length)
          else a ++ b ++ (default :: b).getLast (List.cons_ne_nil _ _) :: c,
        ((a.length + b.length : Nat) : Int)⟩ := by
    rw [← hab, ← ha, Remove_window, shrink_natCast _ _ (by simp)]
  refine ⟨_, hr, by dsimp only; omega, ?_⟩
  have hsz : ((n : Int) - 1) = ((a.length + b.length : Nat) : Int) := by omega
  simp only [capacity]
  rw [hsz, hlen]
  split_ifs
  · simp
  · rw [hlen]

theorem Op.apply_capacity_le {list list' : ArrayList T} (h : Inv list) (op : Op T)
    (hr : op.apply list = some list') (hnr : ∀ i, op ≠ .remove i) (hnc : op ≠ .clear) :
    list.capacity ≤ list'.capacity := by
  have hadd : ∀ (vs : List T) (l' : ArrayList T), list.Add vs = some l' →
      list.capacity ≤ l'.capacity := by
    intro vs l' ha
    obtain ⟨l2, ha2, -, hc⟩ := Add_capacity h vs
    rw [ha] at ha2
    cases ha2
    have hf := le_two_mul_float32OfNat (list.capacity + vs.length)
    rw [hc]
    split_ifs <;> omega
  cases op with
  | add vs => exact hadd vs _ hr
  | set i v =>
    obtain ⟨es, n, rfl, hn⟩ := h.exists_nat
    rcases lt_trichotomy i (n : Int) with hlt | heq | hgt
    · rcases lt_or_le i 0 with h0 | h0
      · rw [Op.apply, Set_natCast_outside es n i v (Or.inl h0)] at hr
        cases hr; exact le_refl _
      · lift i to ℕ using h0
        rw [Op.apply, Set_natCast_inRange es n i v (by omega) hn] at hr
        cases hr
        simp [capacity]
    · subst heq
      rw [Op.apply, Set_natCast_atSize] at hr
      exact hadd _ _ hr
    · rw [Op.apply, Set_natCast_outside es n i v (Or.inr hgt)] at hr
      cases hr; exact le_refl _
  | insert i vs =>
    by_cases hi : 0 ≤ i ∧ i < list.size
    · obtain ⟨l2, ha2, -, hc⟩ := Insert_capacity h i vs hi
      rw [Op.apply, ha2] at hr
      cases hr
      have hf := le_two_mul_float32OfNat (list.capacity + vs.length)
      rw [hc]
      split_ifs <;> omega
    · obtain ⟨es, n, rfl, hn⟩ := h.exists_nat
      dsimp only at hi
      by_cases he : i = (n : Int)
      · subst he
        rw [Op.apply, Insert_natCast_atSize] at hr
        exact hadd _ _ hr
      · rw [Op.apply, Insert_natCast_outside es n i vs (by omega)] at hr
        cases hr; exact le_refl _
  | remove i => exact absurd rfl (hnr i)
  | swap i j =>
    by_cases hi : (0 ≤ i ∧ i < list.size) ∧ (0 ≤ j ∧ j < list.size)
    · obtain ⟨_, _, _, l2, _, _, _, hs, _, _, hc⟩ := Swap_spec h i j hi.1 hi.2
      rw [Op.apply, hs] at hr
      cases hr
      simp [capacity, hc]
    · obtain ⟨es, n, rfl, hn⟩ := h.exists_nat
      dsimp only at hi
      rw [Op.apply, Swap_natCast_outside es n i j (by omega)] at hr
      cases hr; exact le_refl _
  | sort =>
    cases hr
    unfold SortList
    split_ifs
    · exact le_refl _
    · simp [capacity, length_slicesSort]
  | clear => exact absurd rfl hnc

/-- C15: on every reachable list with capacity `c < 2^24`, an in-range `Remove` that leaves
size `s` (the old size minus one) leaves capacity exactly `s` when `s <= floor(c / 4)` and
capacity `c` otherwise; and no operation other than `Remove` and `Clear` lowers the
capacity of a reachable list. -/
theorem shrink_policy (list : ArrayList T) (h : Reachable list) :
    (∀ index : Int, 0 ≤ index ∧ index < list.Size → list.capacity < 2 ^ 24 →
      ∃ list', list.Remove index = some list' ∧ list'.Size = list.Size - 1 ∧
        (list'.Size ≤ ((list.capacity / 4 : Nat) : Int) → (list'.capacity : Int) = list'.Size) ∧
        (((list.capacity / 4 : Nat) : Int) < list'.Size → list'.capacity = list.capacity)) ∧
    (∀ (op : Op T) (list' : ArrayList T), op.apply list = some list' →
      (∀ i, op ≠ .remove i) → op ≠ .clear → list.capacity ≤ list'.capacity) := by
  constructor
  · intro index hi hsmall
    obtain ⟨l', hr, hs, hc⟩ := Remove_capacity h.inv index hi
    rw [float32_natCast, float32OfNat_of_lt _ hsmall] at hc
    simp only [shrinkFactorInv] at hc
    refine ⟨l', hr, hs, ?_, ?_⟩
    · intro hle
      simp only [Size] at hle ⊢
      rw [hc, if_pos (by omega)]
      omega
    · intro hlt
      simp only [Size] at hlt
      rw [if_neg (by omega)] at hc
      exact_mod_cast hc
  · intro op list' hr hnr hnc
    exact Op.apply_capacity_le h.inv op hr hnr hnc

theorem shrink_policy_witness :
    Reachable (⟨[1, 2, 0, 0], 2⟩ : ArrayList Int) ∧
    ((∀ index : Int, 0 ≤ index ∧ index < (⟨[1, 2, 0, 0], 2⟩ : ArrayList Int).Size →
      (⟨[1, 2, 0, 0], 2⟩ : ArrayList Int).capacity < 2 ^ 24 →
      ∃ list', (⟨[1, 2, 0, 0], 2⟩ : ArrayList Int).Remove index = some list' ∧
        list'.Size = (⟨[1, 2, 0, 0], 2⟩ : ArrayList Int).Size - 1 ∧
        (list'.Size ≤ (((⟨[1, 2, 0, 0], 2⟩ : ArrayList Int).capacity / 4 : Nat) : Int) →
          (list'.capacity : Int) = list'.Size) ∧
        ((((⟨[1, 2, 0, 0], 2⟩ : ArrayList Int).capacity / 4 : Nat) : Int) < list'.Size →
          list'.capacity = (⟨[1, 2, 0, 0], 2⟩ : ArrayList Int).capacity)) ∧
    (∀ (op : Op Int) (list' : ArrayList Int),
      op.apply (⟨[1, 2, 0, 0], 2⟩ : ArrayList Int) = some list' →
      (∀ i, op ≠ .remove i) → op ≠ .clear →
      (⟨[1, 2, 0, 0], 2⟩ : ArrayList Int).capacity ≤ list'.capacity)) :=
  ⟨Reachable.new [1, 2] _ (by decide), shrink_policy _ (Reachable.new [1, 2] _ (by decide))⟩

/-! ## The number of reallocations -/

/-- Rounding to `float32` never takes a number from `2^j - 1` or above to below `2^j - 1`:
numbers below `2^24` are exact, above them the rounded value keeps the leading power of two,
and `2^j - 1` itself rounds up to `2^j`. -/
theorem two_pow_le_float32OfNat_succ (j x : Nat) (h : 2 ^ j ≤ x + 1) :
    2 ^ j ≤ float32OfNat x + 1 := by
  unfold float32OfNat
  by_cases hx : x < 2 ^ 24
  · rw [if_pos hx]; exact h
  · rw [if_neg hx]
    dsimp only
    have hx0 : x ≠ 0 := by intro h0; simp [h0] at hx
    have hL1 : 2 ^ Nat.log2 x ≤ x := Nat.log2_self_le hx0
    have hL2 : x < 2 ^ (Nat.log2 x + 1) := Nat.lt_log2_self
    generalize Nat.log2 x = L at hL1 hL2 ⊢
    have hL24 : 24 ≤ L := by
      by_contra hc
      have : 2 ^ (L + 1) ≤ 2 ^ 24 := Nat.pow_le_pow_right (by decide) (by omega)
      omega
    have hpL : 2 ^ L = 2 ^ 23 * 2 ^ (L - 23) := by
      rw [← pow_add]; congr 1; omega
    have hpL1 : 2 ^ (L + 1) = 2 ^ 24 * 2 ^ (L - 23) := by
      rw [← pow_add]; congr 1; omega
    have hp2 : 2 ^ 1 ≤ 2 ^ (L - 23) := Nat.pow_le_pow_right (by decide) (by omega)
    generalize 2 ^ (L - 23) = p at hpL hpL1 hp2 ⊢
    have hp0 : 0 < p := by omega
    have hdm : p * (x / p) + x % p = x := Nat.div_add_mod x p
    have hr : x % p < p := Nat.mod_lt _ hp0
    have hs : ∀ q : Nat, (q + 1) * p = q * p + p := fun q => by ring
    by_cases hj : j ≤ L
    · have hjL : 2 ^ j ≤ 2 ^ L := Nat.pow_le_pow_right (by decide) hj
      have hq : 2 ^ 23 ≤ x / p := (Nat.le_div_iff_mul_le hp0).mpr (by omega)
      have hqp : 2 ^ 23 * p ≤ x / p * p := Nat.mul_le_mul_right p hq
      have := hs (x / p)
      split_ifs <;> omega
    · have hjL : 2 ^ (L + 1) ≤ 2 ^ j := Nat.pow_le_pow_right (by decide) (by omega)
      have hx1 : x + 1 = 2 ^ 24 * p := by omega
      have hqr : x / p = 2 ^ 24 - 1 ∧ x % p = p - 1 := by
        rw [Nat.div_mod_unique hp0]
        refine ⟨?_, by omega⟩
        have : p * (2 ^ 24 - 1) + p = 2 ^ 24 * p := by ring
        omega
      rw [hqr.1, hqr.2]
      split_ifs with h1 h2 h3
      · omega
      · omega
      · exact h3.elim
      · omega

theorem growBy_of_reallocates (list : ArrayList T) (n : Int) :
    (list.growByReallocates n = true →
      list.growBy n = list.resize (growthFactor * float32 ((list.elements.length : Int) + n))) ∧
    (list.growByReallocates n = false → list.growBy n = some list) := by
  unfold growByReallocates growBy
  dsimp only
  constructor
  · intro h
    rw [if_pos (of_decide_eq_true h)]
  · intro h
    rw [if_neg (of_decide_eq_false h)]

/-- One appending call: the capacity bound `2^(r+1) <= capacity + 2` and the size bound
`2^r <= size + 2` survive the call, with `r` one higher if the call reallocates. -/
theorem AppendCall.step_bound (call : AppendCall T) {list : ArrayList T} (r0 : Nat)
    (hinv : Inv list) (hne : call.values ≠ [])
    (hcap : 2 ^ (r0 + 1) ≤ list.capacity + 2) (hsz : 2 ^ r0 ≤ list.size.toNat + 2) :
    ∃ next, call.apply list = some next ∧ Inv next ∧ list.size ≤ next.size ∧
      2 ^ (r0 + (if call.reallocates list then 1 else 0) + 1) ≤ next.capacity + 2 ∧
      2 ^ (r0 + (if call.reallocates list then 1 else 0)) ≤ next.size.toNat + 2 := by
  have key : ∀ (vs : List T) (next : ArrayList T), vs ≠ [] →
      next.size = list.size + vs.length →
      (next.capacity = if list.size + vs.length ≥ list.capacity then
          2 * float32OfNat (list.capacity + vs.length) else list.capacity) →
      list.size ≤ next.size ∧
      2 ^ (r0 + (if list.growByReallocates vs.length then 1 else 0) + 1) ≤ next.capacity + 2 ∧
      2 ^ (r0 + (if list.growByReallocates vs.length then 1 else 0)) ≤ next.size.toNat + 2 := by
    intro vs next hvs hs hc
    have hpos : 0 < vs.length := List.length_pos.mpr hvs
    have h0 := hinv.1
    have hle : list.size ≤ list.capacity := hinv.2
    have hp1 : 2 ^ (r0 + 1 + 1) = 2 * 2 ^ (r0 + 1) := by rw [pow_succ]; ring
    have hp0 : 2 ^ (r0 + 1) = 2 * 2 ^ r0 := by rw [pow_succ]; ring
    unfold growByReallocates
    by_cases hg : list.size + vs.length ≥ list.capacity
    · have hg' : list.size + (vs.length : Int) ≥ (list.elements.length : Int) := hg
      have hf := two_pow_le_float32OfNat_succ (r0 + 1) (list.capacity + vs.length) (by omega)
      rw [if_pos hg] at hc
      simp only [hg', decide_True, if_true]
      refine ⟨by omega, by omega, by omega⟩
    · have hg' : ¬ (list.size + (vs.length : Int) ≥ (list.elements.length : Int)) := hg
      rw [if_neg hg] at hc
      simp only [hg', decide_False, Bool.false_eq_true, if_false, Nat.add_zero]
      refine ⟨by omega, by omega, by omega⟩
  cases call with
  | add vs =>
    obtain ⟨next, ha, hs, hc⟩ := Add_capacity hinv vs
    obtain ⟨_, l2, _, ha2, _, _, hinv2⟩ := Add_spec hinv vs
    rw [ha] at ha2
    cases ha2
    exact ⟨next, ha, hinv2, key vs next hne hs hc⟩
  | insert i vs =>
    have hne' : vs ≠ [] := hne
    by_cases hi : 0 ≤ i ∧ i < list.size
    · obtain ⟨next, ha, hs, hc⟩ := Insert_capacity hinv i vs hi
      have hw : list.withinRange i = true := by
        simp [withinRange, hi.1, hi.2]
      refine ⟨next, ha, Insert_inv i vs hinv ha, ?_⟩
      simpa [AppendCall.reallocates, hw] using key vs next hne' hs hc
    · have hw : list.withinRange i = false := by
        simp only [withinRange, Bool.and_eq_false_iff, decide_eq_false_iff_not]
        omega
      by_cases he : i = list.size
      · obtain ⟨next, ha, hs, hc⟩ := Add_capacity hinv vs
        obtain ⟨_, l2, _, ha2, _, _, hinv2⟩ := Add_spec hinv vs
        rw [ha] at ha2
        cases ha2
        have hins : list.Insert i vs = some next := by
          obtain ⟨es, n, rfl, hn⟩ := hinv.exists_nat
          have he' : i = (n : Int) := he
          subst he'
          rw [Insert_natCast_atSize]; exact ha
        refine ⟨next, hins, hinv2, ?_⟩
        simpa [AppendCall.reallocates, hw, he] using key vs next hne' hs hc
      · have hins : list.Insert i vs = some list := by
          obtain ⟨es, n, rfl, hn⟩ := hinv.exists_nat
          dsimp only at hi he
          exact Insert_natCast_outside es n i vs (by omega)
        refine ⟨list, hins, hinv, le_refl _, ?_⟩
        simpa [AppendCall.reallocates, hw, he] using And.intro hcap hsz

theorem runCounting_bound (calls : List (AppendCall T)) :
    ∀ (list : ArrayList T) (r0 : Nat), Inv list → (∀ c ∈ calls, c.values ≠ []) →
      2 ^ (r0 + 1) ≤ list.capacity + 2 → 2 ^ r0 ≤ list.size.toNat + 2 →
      ∃ final r, runCounting calls list = some (final, r) ∧ Inv final ∧
        2 ^ (r0 + r + 1) ≤ final.capacity + 2 ∧ 2 ^ (r0 + r) ≤ final.size.toNat + 2 := by
  induction calls with
  | nil =>
    intro list r0 hinv _ hcap hsz
    exact ⟨list, 0, rfl, hinv, hcap, hsz⟩
  | cons call rest ih =>
    intro list r0 hinv hne hcap hsz
    obtain ⟨next, ha, hinv', -, hcap', hsz'⟩ :=
      call.step_bound r0 hinv (hne call (List.mem_cons_self _ _)) hcap hsz
    obtain ⟨final, r, hrun, hinvf, hcapf, hszf⟩ :=
      ih next _ hinv' (fun c hc => hne c (List.mem_cons_of_mem _ hc)) hcap' hsz'
    refine ⟨final, (if call.reallocates list then 1 else 0) + r, ?_, hinvf, ?_, ?_⟩
    · simp [runCounting, ha, hrun]
    · rw [← Nat.add_assoc]; exact hcapf
    · rw [← Nat.add_assoc]; exact hszf

theorem runCounting_adds_size (vs : List T) :
    ∀ (list final : ArrayList T) (r : Nat), Inv list →
      runCounting (vs.map (fun v => AppendCall.add [v])) list = some (final, r) →
      final.size = list.size + vs.length := by
  induction vs with
  | nil =>
    intro list final r _ hrun
    simp only [List.map_nil, runCounting, Option.some.injEq, Prod.mk.injEq] at hrun
    rw [← hrun.1]; simp
  | cons v rest ih =>
    intro list final r hinv hrun
    obtain ⟨_, next, _, ha, _, hs, hinv'⟩ := Add_spec hinv [v]
    simp only [List.map_cons, runCounting, AppendCall.apply, ha, Option.bind_eq_bind,
      Option.some_bind] at hrun
    cases hrest : runCounting (rest.map (fun v => AppendCall.add [v])) next with
    | none => rw [hrest] at hrun; simp at hrun
    | some res =>
      obtain ⟨f, r'⟩ := res
      rw [hrest] at hrun
      simp only [Option.some_bind, Option.some.injEq, Prod.mk.injEq] at hrun
      have := ih next f r' hinv' hrest
      rw [← hrun.1, this, hs]
      simp only [List.length_cons, List.length_nil]
      push_cast
      ring

/-- C16: starting from `New()`, any sequence of `Add` and `Insert` calls that each supply
at least one value runs to the end, and the number `r` of calls in which `growBy`
reallocates satisfies `2^r <= n + 2`, where `n`, the number of values appended, is the
final `Size()`; 10,000 single-value `Add` calls leave `Size()` 10,000 and reallocate at
most 13 times. -/
theorem reallocations_logarithmic (calls : List (AppendCall T))
    (hne : ∀ c ∈ calls, c.values ≠ []) :
    ∃ start final r, New ([] : List T) = some start ∧
      runCounting calls start = some (final, r) ∧ 0 ≤ final.Size ∧
      2 ^ r ≤ final.Size.toNat + 2 ∧
      (∀ vs : List T, vs.length = 10000 → calls = vs.map (fun v => AppendCall.add [v]) →
        final.Size = 10000 ∧ r ≤ 13) := by
  have h0 : Inv (⟨[], 0⟩ : ArrayList T) := by simp [Inv]
  obtain ⟨final, r, hrun, hinvf, -, hszf⟩ :=
    runCounting_bound calls ⟨[], 0⟩ 0 h0 hne (by simp [capacity]) (by simp)
  refine ⟨⟨[], 0⟩, final, r, rfl, hrun, hinvf.1, by simpa using hszf, ?_⟩
  intro vs hlen hcalls
  subst hcalls
  have hsize := runCounting_adds_size vs _ _ _ h0 hrun
  have hs : final.size = 10000 := by rw [hsize, hlen]; simp
  refine ⟨hs, ?_⟩
  by_contra hr
  have h14 : 2 ^ 14 ≤ 2 ^ r := Nat.pow_le_pow_right (by decide) (by omega)
  rw [Nat.zero_add, hs] at hszf
  have : (10000 : Int).toNat = 10000 := rfl
  rw [this] at hszf
  omega

theorem reallocations_logarithmic_witness :
    (∀ c ∈ (List.replicate 10000 (7 : Int)).map (fun v => AppendCall.add [v]),
      c.values ≠ []) ∧
    ∃ start final r, New ([] : List Int) = some start ∧
      runCounting ((List.replicate 10000 (7 : Int)).map (fun v => AppendCall.add [v])) start =
        some (final, r) ∧
      2 ^ r ≤ final.Size.toNat + 2 ∧ final.Size = 10000 ∧ r ≤ 13 := by
  have hne : ∀ c ∈ (List.replicate 10000 (7 : Int)).map (fun v => AppendCall.add [v]),
      c.values ≠ [] := by
    intro c hc
    obtain ⟨v, -, rfl⟩ := List.mem_map.mp hc
    simp [AppendCall.values]
  obtain ⟨start, final, r, h1, h2, -, h4, h5⟩ := reallocations_logarithmic _ hne
  exact ⟨hne, start, final, r, h1, h2, h4, h5 _ (List.length_replicate _ _) rfl⟩

end ArrayList
